import Mathlib

/-!
Verification of the graph-algorithm core of koturn/CppCPLib against its
specification: the shortest-path solvers `BellmanFord`, `Dijkstra` and
`WarshalFloyd` from `src/Graph.hpp` (and the templated variants of the same
classes), the `UnionFind` structure from `src/UnionFind.hpp`, and the
spanning-tree solvers described by the specification.

Machine integers are modelled as `Int`; all arithmetic performed by the
algorithms in the regimes considered here stays far inside the 32-bit range,
so no wrap-around modelling is needed.  `std::vector` fields become `List`s,
`std::unordered_set<int>` becomes a duplicate-free insertion list (only its
size and membership are observed by the code), and the `std::priority_queue`
of `Dijkstra` becomes a list popped at its lexicographically least element,
which is exactly the element `top()` returns under `std::greater<P>`.
-/

/-- The infinity sentinel `0x3f3f3f3f` used by all three solvers. -/
def kInf : Int := 0x3f3f3f3f

/-- A directed edge record `(from, to, cost)` as stored by `BellmanFord`
(`struct Edge` in `Graph.hpp`); also used as the abstract graph built by a
sequence of insertions.  `fr` stands for the C++ field `from`, which is a
Lean keyword. -/
structure CEdge where
  fr : Nat
  toV : Nat
  cost : Int
deriving DecidableEq, Repr

/-- A walk in the edge list `g` from `u` to `v`, given as the list of edges
traversed. -/
inductive Walk (g : List CEdge) : Nat → Nat → List CEdge → Prop
  | nil (u : Nat) : Walk g u u []
  | cons (e : CEdge) (v : Nat) (l : List CEdge) (he : e ∈ g)
      (h : Walk g e.toV v l) : Walk g e.fr v (e :: l)

/-- Total cost of a list of edges. -/
def weight (l : List CEdge) : Int :=
  (l.map CEdge.cost).sum

/-- `v` is reachable from `u` in the edge list `g`. -/
def Reachable (g : List CEdge) (u v : Nat) : Prop :=
  ∃ l, Walk g u v l

/-- The vertex sequence of a walk starting at `u`. -/
def walkVerts (u : Nat) (l : List CEdge) : List Nat :=
  u :: l.map CEdge.toV

/-- `d` is the minimum total cost of a path (vertex-repetition-free walk)
from `u` to `v`, and also a lower bound on the cost of every walk. -/
def SpecDist (g : List CEdge) (u v : Nat) (d : Int) : Prop :=
  (∃ l, Walk g u v l ∧ (walkVerts u l).Nodup ∧ weight l = d) ∧
    ∀ l, Walk g u v l → d ≤ weight l

theorem weight_nil : weight [] = 0 := rfl

theorem weight_cons (e : CEdge) (l : List CEdge) :
    weight (e :: l) = e.cost + weight l := by
  simp [weight]

theorem weight_append (l₁ l₂ : List CEdge) :
    weight (l₁ ++ l₂) = weight l₁ + weight l₂ := by
  simp [weight]

theorem weight_nonneg (l : List CEdge) (h : ∀ e ∈ l, 0 ≤ e.cost) :
    0 ≤ weight l := by
  induction l with
  | nil => simp [weight]
  | cons e t ih =>
    rw [weight_cons]
    have := h e (by simp)
    have := ih (fun e' he' => h e' (by simp [he']))
    omega

theorem Walk.append {g : List CEdge} {u v w : Nat} {l₁ l₂ : List CEdge}
    (h₁ : Walk g u v l₁) (h₂ : Walk g v w l₂) : Walk g u w (l₁ ++ l₂) := by
  induction h₁ with
  | nil => simpa using h₂
  | cons e v' l he h ih => exact Walk.cons e w (l ++ l₂) he (ih h₂)

/-- Splitting a walk at a decomposition of its edge list. -/
theorem Walk.split {g : List CEdge} {u w : Nat} {l₁ l₂ : List CEdge}
    (h : Walk g u w (l₁ ++ l₂)) :
    ∃ v, Walk g u v l₁ ∧ Walk g v w l₂ := by
  induction l₁ generalizing u with
  | nil => exact ⟨u, Walk.nil u, by simpa using h⟩
  | cons e t ih =>
    cases h with
    | cons _ _ _ he h' =>
      obtain ⟨v, hv₁, hv₂⟩ := ih h'
      exact ⟨v, Walk.cons e v t he hv₁, hv₂⟩

theorem Walk.edges_mem {g : List CEdge} {u v : Nat} {l : List CEdge}
    (h : Walk g u v l) : ∀ e ∈ l, e ∈ g := by
  induction h with
  | nil => simp
  | cons e v l he h ih =>
    intro e' he'
    rcases List.mem_cons.mp he' with h1 | h1
    · exact h1 ▸ he
    · exact ih e' h1

/-- The vertices of a walk are determined by its start and edge list; the
last vertex of `walkVerts` is the walk's endpoint. -/
theorem Walk.last_eq {g : List CEdge} {u v : Nat} {l : List CEdge}
    (h : Walk g u v l) : (walkVerts u l).getLast (by simp [walkVerts]) = v := by
  induction h with
  | nil => simp [walkVerts]
  | cons e v l he h ih =>
    simp only [walkVerts] at ih ⊢
    rw [List.getLast_cons (by simp)]
    exact ih

theorem walk_nil_eq {g : List CEdge} {u v : Nat} {l : List CEdge}
    (h : Walk g u v l) (hl : l = []) : u = v := by
  induction h with
  | nil => rfl
  | cons e v' l' he h' ih => simp at hl

theorem walk_singleton {g : List CEdge} {u v : Nat} {e : CEdge} {l : List CEdge}
    (h : Walk g u v l) (hl : l = [e]) : u = e.fr ∧ v = e.toV := by
  induction h with
  | nil => simp at hl
  | cons e' v' l' he h' ih =>
    obtain ⟨he', hl'⟩ := List.cons_eq_cons.mp hl
    subst he'
    exact ⟨rfl, (walk_nil_eq h' hl').symm⟩

theorem Walk.last_toV {g : List CEdge} {u v : Nat} {l : List CEdge} {e : CEdge}
    (h : Walk g u v (l ++ [e])) : v = e.toV := by
  obtain ⟨m, _, h₂⟩ := Walk.split h
  exact (walk_singleton h₂ rfl).2

/-- If the edge targets repeat, the edge list splits at two edges entering
the same vertex. -/
theorem dup_split {l : List CEdge} (h : ¬ (l.map CEdge.toV).Nodup) :
    ∃ l₁ e₁ l₂ e₂ l₃, l = l₁ ++ e₁ :: l₂ ++ e₂ :: l₃ ∧
      e₁.toV = e₂.toV := by
  induction l with
  | nil => simp at h
  | cons e t ih =>
    rw [List.map_cons, List.nodup_cons] at h
    push_neg at h
    by_cases hm : e.toV ∈ t.map CEdge.toV
    · obtain ⟨y, hy, hyx⟩ := List.mem_map.mp hm
      obtain ⟨l₂, l₃, ht⟩ := List.append_of_mem hy
      exact ⟨[], e, l₂, y, l₃, by simp [ht], hyx.symm⟩
    · obtain ⟨l₁, e₁, l₂, e₂, l₃, ht, h₁⟩ := ih (h hm)
      exact ⟨e :: l₁, e₁, l₂, e₂, l₃, by simp [ht], h₁⟩

/-- Walk pruning: when every closed walk at a vertex reachable from `s` has
non-negative weight, every walk from `s` can be replaced by a
vertex-repetition-free walk of no greater weight. -/
theorem walk_to_path {g : List CEdge} {s : Nat}
    (hcyc : ∀ x l, Reachable g s x → Walk g x x l → 0 ≤ weight l) :
    ∀ (n : Nat) {v : Nat} {l : List CEdge}, l.length ≤ n → Walk g s v l →
      ∃ l', Walk g s v l' ∧ (walkVerts s l').Nodup ∧ weight l' ≤ weight l := by
  intro n
  induction n with
  | zero =>
    intro v l hl h
    have : l = [] := List.length_eq_zero.mp (Nat.le_zero.mp hl)
    subst this
    exact ⟨[], h, by simp [walkVerts], le_refl _⟩
  | succ n ih =>
    intro v l hl h
    by_cases hnd : (walkVerts s l).Nodup
    · exact ⟨l, h, hnd, le_refl _⟩
    · rw [walkVerts, List.nodup_cons] at hnd
      push_neg at hnd
      by_cases hs : s ∈ l.map CEdge.toV
      · -- the walk returns to `s`; keep only the part after a return
        obtain ⟨y, hy, hys⟩ := List.mem_map.mp hs
        obtain ⟨l₁, l₂, hsplit⟩ := List.append_of_mem hy
        subst hsplit
        have hre : Walk g s v ((l₁ ++ [y]) ++ l₂) := by simpa using h
        obtain ⟨m, hm₁, hm₂⟩ := Walk.split hre
        have hms : m = s := (Walk.last_toV hm₁).trans hys
        rw [hms] at hm₁ hm₂
        have hlen : l₂.length ≤ n := by
          simp only [List.length_append, List.length_cons] at hl ⊢
          omega
        obtain ⟨l', hw', hnd', hwt'⟩ := ih hlen hm₂
        refine ⟨l', hw', hnd', ?_⟩
        have hcw : 0 ≤ weight (l₁ ++ [y]) :=
          hcyc s (l₁ ++ [y]) ⟨[], Walk.nil s⟩ hm₁
        have heq : weight (l₁ ++ y :: l₂) = weight (l₁ ++ [y]) + weight l₂ := by
          rw [show l₁ ++ y :: l₂ = (l₁ ++ [y]) ++ l₂ by simp, weight_append]
        omega
      · -- a vertex other than `s` repeats; excise the loop between the visits
        have hdup : ¬ (l.map CEdge.toV).Nodup := fun hn => (hnd hs) hn
        obtain ⟨l₁, e₁, l₂, e₂, l₃, hsplit, hee⟩ := dup_split hdup
        subst hsplit
        have hre : Walk g s v ((l₁ ++ [e₁]) ++ ((l₂ ++ [e₂]) ++ l₃)) := by
          simpa using h
        obtain ⟨m₁, hm₁, hrest⟩ := Walk.split hre
        have hm₁x : m₁ = e₁.toV := Walk.last_toV hm₁
        rw [hm₁x] at hm₁ hrest
        obtain ⟨m₂, hm₂, hm₃⟩ := Walk.split hrest
        have hm₂x : m₂ = e₂.toV := Walk.last_toV hm₂
        rw [hm₂x, ← hee] at hm₂ hm₃
        have hshort : Walk g s v ((l₁ ++ [e₁]) ++ l₃) := Walk.append hm₁ hm₃
        have hlen : ((l₁ ++ [e₁]) ++ l₃).length ≤ n := by
          simp only [List.length_append, List.length_cons, List.length_nil]
            at hl ⊢
          omega
        obtain ⟨l', hw', hnd', hwt'⟩ := ih hlen hshort
        refine ⟨l', hw', hnd', ?_⟩
        have hcw : 0 ≤ weight (l₂ ++ [e₂]) :=
          hcyc e₁.toV (l₂ ++ [e₂]) ⟨l₁ ++ [e₁], hm₁⟩ hm₂
        have hw1 : weight (l₁ ++ e₁ :: l₂ ++ e₂ :: l₃) =
            weight (l₁ ++ [e₁]) + weight (l₂ ++ [e₂]) + weight l₃ := by
          simp [weight]
          ring
        have hw2 : weight ((l₁ ++ [e₁]) ++ l₃) =
            weight (l₁ ++ [e₁]) + weight l₃ := weight_append _ _
        omega

/-- With non-negative edge costs every closed walk has non-negative weight. -/
theorem nonneg_cycles {g : List CEdge} {s : Nat}
    (hc : ∀ e ∈ g, 0 ≤ e.cost) :
    ∀ x l, Reachable g s x → Walk g x x l → 0 ≤ weight l := by
  intro x l _ hw
  exact weight_nonneg l (fun e he => hc e (Walk.edges_mem hw e he))

/-! ## BellmanFord (`src/Graph.hpp`, class `BellmanFord`) -/

/-- Insertion into an `std::unordered_set`: only size and membership of the
set are ever observed, so the iteration order may be modelled as insertion
order. -/
def vinsert (s : List Nat) (x : Nat) : List Nat :=
  if x ∈ s then s else s ++ [x]

theorem vinsert_nodup {s : List Nat} (h : s.Nodup) (x : Nat) :
    (vinsert s x).Nodup := by
  unfold vinsert
  split
  · exact h
  · simpa [List.nodup_append] using ⟨h, by assumption⟩

theorem mem_vinsert (s : List Nat) (x y : Nat) :
    y ∈ vinsert s x ↔ y ∈ s ∨ y = x := by
  unfold vinsert
  split
  · next hx => constructor
               · exact fun h => Or.inl h
               · rintro (h | rfl) <;> [exact h; exact hx]
  · simp

/-- State of class `BellmanFord`: the flat edge list `m_graph` and the
distinct-vertex set `m_vertex`. -/
structure BellmanFord where
  m_graph : List CEdge
  m_vertex : List Nat
deriving Repr

/-- `BellmanFord()` default constructor. -/
def BellmanFord.init : BellmanFord := ⟨[], []⟩

/-- `BellmanFord::addDirectedEdge_`. -/
def BellmanFord.addDirectedEdge_ (st : BellmanFord) (fr toV : Nat)
    (cost : Int) : BellmanFord :=
  { m_graph := st.m_graph ++ [⟨fr, toV, cost⟩],
    m_vertex := vinsert (vinsert st.m_vertex fr) toV }

/-- `BellmanFord::addEdge_`: the directed edge plus
`m_graph.emplace_back(to, from, cost)`. -/
def BellmanFord.addEdge_ (st : BellmanFord) (fr toV : Nat)
    (cost : Int) : BellmanFord :=
  let st' := st.addDirectedEdge_ fr toV cost
  { st' with m_graph := st'.m_graph ++ [⟨toV, fr, cost⟩] }

/-- One relaxation step of the inner `for` loop of
`BellmanFord::shortestPath_`: the running pair is `(isUpdated, dists)`. -/
def bfStep (p : Bool × List Int) (e : CEdge) : Bool × List Int :=
  if p.2.getD e.fr 0 ≠ kInf ∧ p.2.getD e.toV 0 > p.2.getD e.fr 0 + e.cost then
    (true, p.2.set e.toV (p.2.getD e.fr 0 + e.cost))
  else p

/-- One full pass over the edge list (`isUpdated` reset to `false` first). -/
def bfPass (g : List CEdge) (d : List Int) : Bool × List Int :=
  g.foldl bfStep (false, d)

/-- The outer `for (;;)` loop of `BellmanFord::shortestPath_`, with explicit
fuel; `none` means the loop has not finished within `fuel` passes. -/
def bfLoop : Nat → List CEdge → List Int → Option (List Int)
  | 0, _, _ => none
  | fuel + 1, g, d =>
    let p := bfPass g d
    if p.1 then bfLoop fuel g p.2 else some d

/-- The initial distance vector of `shortestPath_`: `m_vertex.size()` copies
of `kInf`, then `dists[from] = 0`. -/
def bfInitD (n fr : Nat) : List Int :=
  (List.replicate n kInf).set fr 0

/-- `BellmanFord::shortestPath_(from)`, run for at most `fuel` passes. -/
def BellmanFord.shortestPath_ (st : BellmanFord) (fr : Nat) (fuel : Nat) :
    Option (List Int) :=
  bfLoop fuel st.m_graph (bfInitD st.m_vertex.length fr)

/-- A graph-building operation: `addEdge` (undirected) or
`addDirectedEdge`. -/
structure Op where
  undirected : Bool
  fr : Nat
  toV : Nat
  cost : Int
deriving DecidableEq, Repr

/-- The abstract edge list described by a sequence of build operations: an
undirected insertion contributes both directions. -/
def opEdges (ops : List Op) : List CEdge :=
  ops.flatMap (fun o =>
    if o.undirected then [⟨o.fr, o.toV, o.cost⟩, ⟨o.toV, o.fr, o.cost⟩]
    else [⟨o.fr, o.toV, o.cost⟩])

/-- Building a `BellmanFord` instance by the corresponding sequence of
`addEdge` / `addDirectedEdge` calls. -/
def buildBF (ops : List Op) : BellmanFord :=
  ops.foldl (fun st o =>
    if o.undirected then st.addEdge_ o.fr o.toV o.cost
    else st.addDirectedEdge_ o.fr o.toV o.cost) BellmanFord.init

theorem buildBF_graph_aux (ops : List Op) (st : BellmanFord) :
    (ops.foldl (fun st o =>
      if o.undirected then st.addEdge_ o.fr o.toV o.cost
      else st.addDirectedEdge_ o.fr o.toV o.cost) st).m_graph =
      st.m_graph ++ opEdges ops := by
  induction ops generalizing st with
  | nil => simp [opEdges]
  | cons o t ih =>
    rw [List.foldl_cons, ih]
    by_cases hu : o.undirected <;>
      simp [hu, opEdges, BellmanFord.addEdge_, BellmanFord.addDirectedEdge_]

/-- The edge list stored by a built `BellmanFord` is exactly the abstract
edge list of the operations. -/
theorem buildBF_graph (ops : List Op) :
    (buildBF ops).m_graph = opEdges ops := by
  simpa [buildBF, BellmanFord.init] using buildBF_graph_aux ops BellmanFord.init

theorem getD_set_self {α : Type} {d : List α} {j : Nat} (v x : α)
    (h : j < d.length) : (d.set j v).getD j x = v := by
  simp [List.getD, List.getElem?_set, h]

theorem getD_set_ne {α : Type} {d : List α} {i j : Nat} (v x : α)
    (h : i ≠ j) : (d.set j v).getD i x = d.getD i x := by
  simp [List.getD, List.getElem?_set, Ne.symm h]

theorem sum_set {d : List Int} {j : Nat} (v : Int) (h : j < d.length) :
    (d.set j v).sum = d.sum - d.getD j 0 + v := by
  induction d generalizing j with
  | nil => simp at h
  | cons a t ih =>
    cases j with
    | zero => simp [List.getD]; ring
    | succ j =>
      have hj : j < t.length := by simpa using h
      simp only [List.set_cons_succ, List.sum_cons, ih hj]
      simp [List.getD]
      ring

/-- The relaxation-fixpoint condition of one edge: either the source entry is
the sentinel or the target entry cannot be improved. -/
def BFfix (d : List Int) (e : CEdge) : Prop :=
  d.getD e.fr 0 = kInf ∨ d.getD e.toV 0 ≤ d.getD e.fr 0 + e.cost

instance (d : List Int) (e : CEdge) : Decidable (BFfix d e) := by
  unfold BFfix; infer_instance

/-- Every entry of index `< n` is either the sentinel or the weight of some
walk from `s`. -/
def WalkInv (g : List CEdge) (s : Nat) (d : List Int) : Prop :=
  ∀ i < d.length, d.getD i 0 = kInf ∨ ∃ l, Walk g s i l ∧ weight l = d.getD i 0

/-- All entries are at most the sentinel. -/
def UBInv (d : List Int) : Prop :=
  ∀ i < d.length, d.getD i 0 ≤ kInf

theorem bfStep_length (p : Bool × List Int) (e : CEdge) :
    (bfStep p e).2.length = p.2.length := by
  unfold bfStep
  split <;> simp

theorem bfFold_length (g : List CEdge) (p : Bool × List Int) :
    (g.foldl bfStep p).2.length = p.2.length := by
  induction g generalizing p with
  | nil => rfl
  | cons e t ih => rw [List.foldl_cons, ih, bfStep_length]

theorem bfStep_le (p : Bool × List Int) (e : CEdge) (i : Nat) :
    (bfStep p e).2.getD i 0 ≤ p.2.getD i 0 := by
  unfold bfStep
  split
  · next hc =>
    by_cases hi : i = e.toV
    · rw [hi]
      by_cases hlen : e.toV < p.2.length
      · rw [getD_set_self _ _ hlen]; omega
      · rw [List.set_eq_of_length_le (by omega)]
    · rw [getD_set_ne _ _ hi]
  · exact le_refl _

theorem bfFold_le (g : List CEdge) (p : Bool × List Int) (i : Nat) :
    (g.foldl bfStep p).2.getD i 0 ≤ p.2.getD i 0 := by
  induction g generalizing p with
  | nil => exact le_refl _
  | cons e t ih =>
    rw [List.foldl_cons]
    exact le_trans (ih _) (bfStep_le p e i)

theorem bfFold_true (g : List CEdge) (d : List Int) :
    (g.foldl bfStep (true, d)).1 = true := by
  induction g generalizing d with
  | nil => rfl
  | cons e t ih =>
    rw [List.foldl_cons]
    unfold bfStep
    split
    · exact ih _
    · exact ih d

/-- If a whole pass reports no update, the distance vector is unchanged and
every edge satisfies the fixpoint condition. -/
theorem bfFold_false {g : List CEdge} {d d' : List Int} {b : Bool}
    (h : g.foldl bfStep (b, d) = (false, d')) :
    d' = d ∧ ∀ e ∈ g, BFfix d e := by
  induction g generalizing d b with
  | nil =>
    simp only [List.foldl_nil] at h
    injection h with h1 h2
    exact ⟨h2.symm, by simp⟩
  | cons e t ih =>
    rw [List.foldl_cons] at h
    by_cases hc : d.getD e.fr 0 ≠ kInf ∧ d.getD e.toV 0 > d.getD e.fr 0 + e.cost
    · exfalso
      have : bfStep (b, d) e = (true, d.set e.toV (d.getD e.fr 0 + e.cost)) := by
        unfold bfStep
        rw [if_pos hc]
      rw [this] at h
      have := bfFold_true t (d.set e.toV (d.getD e.fr 0 + e.cost))
      rw [h] at this
      simp at this
    · have hstep : bfStep (b, d) e = (b, d) := by
        unfold bfStep
        rw [if_neg hc]
      rw [hstep] at h
      obtain ⟨h1, h2⟩ := ih h
      refine ⟨h1, ?_⟩
      intro e' he'
      rcases List.mem_cons.mp he' with rfl | hmem
      · unfold BFfix
        push_neg at hc
        by_cases hk : d.getD e'.fr 0 = kInf
        · exact Or.inl hk
        · exact Or.inr (hc hk)
      · exact h2 e' hmem

theorem bfStep_walkInv {g : List CEdge} {s : Nat} {d : List Int}
    (hw : WalkInv g s d) (hub : UBInv d) (b : Bool) {e : CEdge} (he : e ∈ g)
    (hv : e.fr < d.length ∧ e.toV < d.length) :
    WalkInv g s (bfStep (b, d) e).2 ∧ UBInv (bfStep (b, d) e).2 := by
  unfold bfStep
  dsimp only
  split
  · next hc =>
    obtain ⟨hk, hgt⟩ := hc
    simp only
    have hfr := hw e.fr hv.1
    rcases hfr with hfr | ⟨l, hl, hwt⟩
    · exact absurd hfr hk
    constructor
    · intro i hi
      rw [List.length_set] at hi
      by_cases hie : i = e.toV
      · subst hie
        rw [getD_set_self _ _ hv.2]
        exact Or.inr ⟨l ++ [e], Walk.append hl
          (Walk.cons e e.toV [] he (Walk.nil e.toV)), by
            rw [weight_append, hwt, weight_cons, weight_nil]; ring⟩
      · rw [getD_set_ne _ _ hie]
        exact hw i hi
    · intro i hi
      rw [List.length_set] at hi
      by_cases hie : i = e.toV
      · subst hie
        rw [getD_set_self _ _ hv.2]
        have := hub e.toV hv.2
        omega
      · rw [getD_set_ne _ _ hie]
        exact hub i hi
  · exact ⟨hw, hub⟩

theorem bfFold_walkInv {g : List CEdge} {s : Nat} :
    ∀ (t : List CEdge) (ht : t ⊆ g) (b : Bool) (d : List Int)
      (hw : WalkInv g s d) (hub : UBInv d)
      (hv : ∀ e ∈ g, e.fr < d.length ∧ e.toV < d.length),
      WalkInv g s (t.foldl bfStep (b, d)).2 ∧
        UBInv (t.foldl bfStep (b, d)).2 := by
  intro t
  induction t with
  | nil =>
    intro _ b d hw hub _
    exact ⟨hw, hub⟩
  | cons e t ih =>
    intro ht b d hw hub hv
    rw [List.foldl_cons]
    have he : e ∈ g := ht (by simp)
    have hv' := hv e he
    obtain ⟨hw', hub'⟩ := bfStep_walkInv hw hub b he hv'
    have hlen : (bfStep (b, d) e).2.length = d.length := bfStep_length _ _
    have := ih (fun x hx => ht (by simp [hx])) (bfStep (b, d) e).1
      (bfStep (b, d) e).2 hw' hub' (by rw [hlen]; exact hv)
    simpa using this

/-- Sum of the |cost| values of an edge list. -/
def sumAbs (g : List CEdge) : Int :=
  (g.map (fun e => |e.cost|)).sum

theorem sumAbs_nonneg (g : List CEdge) : 0 ≤ sumAbs g := by
  unfold sumAbs
  induction g with
  | nil => simp
  | cons e t ih =>
    rw [List.map_cons, List.sum_cons]
    have := abs_nonneg e.cost
    omega

theorem sublist_sum_le {l₁ l₂ : List Int} (h : List.Sublist l₁ l₂)
    (hn : ∀ x ∈ l₂, 0 ≤ x) : l₁.sum ≤ l₂.sum := by
  induction h with
  | slnil => simp
  | cons a h ih =>
    rw [List.sum_cons]
    have := hn a (by simp)
    have := ih (fun x hx => hn x (by simp [hx]))
    omega
  | cons₂ a h ih =>
    rw [List.sum_cons, List.sum_cons]
    have := ih (fun x hx => hn x (by simp [hx]))
    omega

theorem walk_fr_verts {g : List CEdge} {u v : Nat} {l : List CEdge}
    (h : Walk g u v l) : l.map CEdge.fr = (walkVerts u l).dropLast := by
  induction h with
  | nil => simp [walkVerts]
  | cons e v l he h ih =>
    simp only [walkVerts, List.map_cons] at ih ⊢
    rw [List.dropLast_cons_of_ne_nil (by simp)]
    rw [ih]

theorem sum_map_neg_abs (l : List CEdge) :
    (l.map fun e => -|e.cost|).sum = -((l.map fun e => |e.cost|).sum) := by
  induction l with
  | nil => simp
  | cons a t ih =>
    simp only [List.map_cons, List.sum_cons, ih]
    ring

/-- Lower bound: assuming no reachable negative cycle, the weight of any walk
from `s` is at least `-(sumAbs g)`. -/
theorem walk_weight_lb {g : List CEdge} {s v : Nat} {l : List CEdge}
    (hcyc : ∀ x l, Reachable g s x → Walk g x x l → 0 ≤ weight l)
    (h : Walk g s v l) : -(sumAbs g) ≤ weight l := by
  obtain ⟨l', hw', hnd', hwt'⟩ := walk_to_path hcyc l.length le_rfl h
  have hfr : (l'.map CEdge.fr).Nodup := by
    rw [walk_fr_verts hw']
    exact hnd'.sublist (List.dropLast_sublist _)
  have hnd'' : l'.Nodup := hfr.of_map CEdge.fr
  have hsub : List.Subperm l' g := hnd''.subperm (Walk.edges_mem hw')
  obtain ⟨l'', hperm, hsl⟩ := hsub
  have h1 : -(sumAbs l') ≤ weight l' := by
    unfold sumAbs weight
    have hneg := sum_map_neg_abs l'
    have : (l'.map (fun e => -|e.cost|)).sum ≤ (l'.map CEdge.cost).sum :=
      List.sum_le_sum (fun e _ => neg_abs_le e.cost)
    rw [hneg] at this
    exact this
  have h2 : sumAbs l' ≤ sumAbs g := by
    unfold sumAbs
    have hpm : (l''.map (fun e => |e.cost|)).Perm
        (l'.map (fun e => |e.cost|)) := hperm.map _
    rw [← hpm.sum_eq]
    refine sublist_sum_le (hsl.map _) ?_
    intro x hx
    obtain ⟨e, he, rfl⟩ := List.mem_map.mp hx
    exact abs_nonneg _
  omega

theorem bfFold_sum (t : List CEdge) (b : Bool) (d : List Int)
    (hv : ∀ e ∈ t, e.toV < d.length) :
    (t.foldl bfStep (b, d)).2.sum ≤ d.sum ∧
      ((t.foldl bfStep (b, d)).1 = true → b = true ∨
        (t.foldl bfStep (b, d)).2.sum < d.sum) := by
  induction t generalizing b d with
  | nil => exact ⟨le_refl _, fun h => Or.inl h⟩
  | cons e t ih =>
    rw [List.foldl_cons]
    by_cases hc : d.getD e.fr 0 ≠ kInf ∧ d.getD e.toV 0 > d.getD e.fr 0 + e.cost
    · have hstep : bfStep (b, d) e =
          (true, d.set e.toV (d.getD e.fr 0 + e.cost)) := by
        unfold bfStep
        rw [if_pos hc]
      rw [hstep]
      have hlt : (d.set e.toV (d.getD e.fr 0 + e.cost)).sum < d.sum := by
        rw [sum_set _ (hv e (by simp))]
        omega
      have hlen : (d.set e.toV (d.getD e.fr 0 + e.cost)).length = d.length := by
        simp
      obtain ⟨h1, _⟩ := ih true _ (fun e' he' => hlen ▸ hv e' (by simp [he']))
      exact ⟨by omega, fun _ => Or.inr (by omega)⟩
    · have hstep : bfStep (b, d) e = (b, d) := by
        unfold bfStep
        rw [if_neg hc]
      rw [hstep]
      exact ih b d (fun e' he' => hv e' (by simp [he']))

theorem list_sum_lb (d : List Int) (c : Int) (h : ∀ x ∈ d, -c ≤ x) :
    -((d.length : Int) * c) ≤ d.sum := by
  induction d with
  | nil => simp
  | cons a t ih =>
    rw [List.sum_cons, List.length_cons]
    have h1 := h a (by simp)
    have h2 := ih (fun x hx => h x (by simp [hx]))
    push_cast
    push_cast at h2
    nlinarith

/-- Entries of an invariant-satisfying vector are bounded below by
`-(sumAbs g)` when the graph has no negative cycle reachable from `s`. -/
theorem walkInv_entry_lb {g : List CEdge} {s : Nat} {d : List Int}
    (hcyc : ∀ x l, Reachable g s x → Walk g x x l → 0 ≤ weight l)
    (hw : WalkInv g s d) : ∀ x ∈ d, -(sumAbs g) ≤ x := by
  intro x hx
  obtain ⟨i, hi, rfl⟩ := List.mem_iff_getElem.mp hx
  have hgd : d.getD i 0 = d[i] := by
    rw [List.getD_eq_getElem d 0 hi]
  rcases hw i hi with hk | ⟨l, hl, hwt⟩
  · rw [← hgd, hk]
    have := sumAbs_nonneg g
    unfold kInf
    omega
  · rw [← hgd, ← hwt]
    exact walk_weight_lb hcyc hl

theorem bfLoop_some_spec {g : List CEdge} {s : Nat} :
    ∀ (fuel : Nat) (d out : List Int), bfLoop fuel g d = some out →
      (∀ e ∈ g, e.fr < d.length ∧ e.toV < d.length) →
      UBInv d → WalkInv g s d → d.getD s 0 ≤ 0 →
      out.length = d.length ∧ UBInv out ∧ WalkInv g s out ∧
        out.getD s 0 ≤ 0 ∧ ∀ e ∈ g, BFfix out e := by
  intro fuel
  induction fuel with
  | zero => intro d out h; simp [bfLoop] at h
  | succ fuel ih =>
    intro d out h hval hub hw hs0
    rw [show bfLoop (fuel + 1) g d =
      (if (bfPass g d).1 then bfLoop fuel g (bfPass g d).2 else some d)
      from rfl] at h
    by_cases hp : (bfPass g d).1
    · rw [if_pos hp] at h
      have hlen : (bfPass g d).2.length = d.length := bfFold_length g _
      obtain ⟨hw', hub'⟩ := @bfFold_walkInv g s g (fun x hx => hx)
        false d hw hub hval
      have hs0' : (bfPass g d).2.getD s 0 ≤ 0 :=
        le_trans (bfFold_le g (false, d) s) hs0
      have := ih _ _ h (fun e he => hlen ▸ hval e he) hub' hw' hs0'
      rw [hlen] at this
      exact this
    · rw [if_neg hp] at h
      obtain rfl : d = out := by injection h
      have hfalse : bfPass g d = (false, (bfPass g d).2) := by
        have := Bool.of_not_eq_true hp
        exact Prod.ext this rfl
      obtain ⟨-, hfix⟩ := bfFold_false hfalse
      exact ⟨rfl, hub, hw, hs0, hfix⟩

/-- Termination of the BellmanFord relaxation loop in the absence of a
negative cycle reachable from the source. -/
theorem bfLoop_term {g : List CEdge} {s : Nat}
    (hcyc : ∀ x l, Reachable g s x → Walk g x x l → 0 ≤ weight l) :
    ∀ (k : Nat) (d : List Int),
      (∀ e ∈ g, e.fr < d.length ∧ e.toV < d.length) →
      UBInv d → WalkInv g s d →
      (d.sum + (d.length : Int) * sumAbs g).toNat ≤ k →
      ∃ fuel out, bfLoop fuel g d = some out := by
  intro k
  induction k with
  | zero =>
    intro d hval hub hw hk
    by_cases hp : (bfPass g d).1
    · exfalso
      obtain ⟨hle, hstrict⟩ := bfFold_sum g false d (fun e he => (hval e he).2)
      rw [show g.foldl bfStep (false, d) = bfPass g d from rfl] at hle hstrict
      have hlt : (bfPass g d).2.sum < d.sum := by
        rcases hstrict hp with h | h
        · simp at h
        · exact h
      have hlen : (bfPass g d).2.length = d.length := bfFold_length g _
      obtain ⟨hw', hub'⟩ := @bfFold_walkInv g s g (fun x hx => hx)
        false d hw hub hval
      have hlb' := walkInv_entry_lb hcyc hw'
      have hlb : -(((bfPass g d).2.length : Int) * sumAbs g) ≤
          (bfPass g d).2.sum := list_sum_lb _ _ hlb'
      rw [hlen] at hlb
      omega
    · exact ⟨1, d, by simp [bfLoop, hp]⟩
  | succ k ih =>
    intro d hval hub hw hk
    by_cases hp : (bfPass g d).1
    · obtain ⟨hle, hstrict⟩ := bfFold_sum g false d (fun e he => (hval e he).2)
      have hlt : (bfPass g d).2.sum < d.sum := by
        rcases hstrict hp with h | h
        · simp at h
        · exact h
      have hlen : (bfPass g d).2.length = d.length := bfFold_length g _
      obtain ⟨hw', hub'⟩ := @bfFold_walkInv g s g (fun x hx => hx)
        false d hw hub hval
      have hlb : -(((bfPass g d).2.length : Int) * sumAbs g) ≤
          (bfPass g d).2.sum := list_sum_lb _ _ (walkInv_entry_lb hcyc hw')
      rw [hlen] at hlb
      obtain ⟨fuel, out, hout⟩ := ih (bfPass g d).2
        (fun e he => hlen ▸ hval e he) hub' hw' (by rw [hlen]; omega)
      exact ⟨fuel + 1, out, by
        rw [show bfLoop (fuel + 1) g d =
          (if (bfPass g d).1 then bfLoop fuel g (bfPass g d).2 else some d)
          from rfl, if_pos hp]
        exact hout⟩
    · exact ⟨1, d, by simp [bfLoop, hp]⟩

/-- Total cost of all edges of the graph. -/
def sumCost (g : List CEdge) : Int :=
  (g.map CEdge.cost).sum

/-- Upper bound along a walk with small prefix weights, at any relaxation
fixpoint. -/
theorem fix_upper {g : List CEdge} {d : List Int}
    (hfix : ∀ e ∈ g, BFfix d e) :
    ∀ (l : List CEdge) (u v : Nat), Walk g u v l → ∀ (c0 : Int),
      d.getD u 0 ≤ c0 → (∀ k, c0 + weight (l.take k) < kInf) →
      d.getD v 0 ≤ c0 + weight l := by
  intro l
  induction l with
  | nil =>
    intro u v hw c0 hu _
    rw [walk_nil_eq hw rfl] at hu
    simpa [weight] using hu
  | cons e t ih =>
    intro u v hw c0 hu hpre
    cases hw with
    | cons _ _ _ he hw' =>
      have hc0 : c0 < kInf := by
        have := hpre 0
        simpa [weight] using this
      have hne : d.getD e.fr 0 ≠ kInf := by
        intro hk
        rw [hk] at hu
        omega
      have hstep : d.getD e.toV 0 ≤ d.getD e.fr 0 + e.cost := by
        rcases hfix e he with h | h
        · exact absurd h hne
        · exact h
      have hrec := ih e.toV v hw' (c0 + e.cost) (by omega) (by
        intro k
        have := hpre (k + 1)
        simpa [List.take_succ_cons, weight_cons, add_assoc] using this)
      rw [weight_cons]
      omega

/-- Weight bound for paths: with non-negative costs summing below the
sentinel, every vertex-repetition-free walk and each of its prefixes weighs
less than `kInf`. -/
theorem path_weight_lt {g : List CEdge} {s v : Nat} {l : List CEdge}
    (hc : ∀ e ∈ g, 0 ≤ e.cost) (hsum : sumCost g < kInf)
    (hw : Walk g s v l) (hnd : (walkVerts s l).Nodup) :
    weight l < kInf ∧ ∀ k, weight (l.take k) < kInf := by
  have hfr : (l.map CEdge.fr).Nodup := by
    rw [walk_fr_verts hw]
    exact hnd.sublist (List.dropLast_sublist _)
  have hnd' : l.Nodup := hfr.of_map CEdge.fr
  have hsub : List.Subperm l g := hnd'.subperm (Walk.edges_mem hw)
  obtain ⟨l'', hperm, hsl⟩ := hsub
  have hwt : weight l ≤ sumCost g := by
    unfold weight sumCost
    have hpm : (l''.map CEdge.cost).Perm (l.map CEdge.cost) := hperm.map _
    rw [← hpm.sum_eq]
    refine sublist_sum_le (hsl.map _) ?_
    intro x hx
    obtain ⟨e, he, rfl⟩ := List.mem_map.mp hx
    exact hc e he
  have hwlt : weight l < kInf := lt_of_le_of_lt hwt hsum
  refine ⟨hwlt, ?_⟩
  intro k
  have : weight (l.take k) ≤ weight l := by
    conv_rhs => rw [← List.take_append_drop k l]
    rw [weight_append]
    have : 0 ≤ weight (l.drop k) := weight_nonneg _ (fun e he =>
      hc e (Walk.edges_mem hw e (List.mem_of_mem_drop he)))
    omega
  omega

theorem walk_endpoint {g : List CEdge} {u v : Nat} {l : List CEdge}
    (h : Walk g u v l) : v = u ∨ ∃ e ∈ g, e.toV = v := by
  induction h with
  | nil => exact Or.inl rfl
  | cons e v l he hw ih =>
    rcases ih with rfl | ⟨e', he', rfl⟩
    · exact Or.inr ⟨e, he, rfl⟩
    · exact Or.inr ⟨e', he', rfl⟩

/-- Correctness at a relaxation fixpoint, non-negative-cost regime: every
entry of index reachable from `s` is the shortest path distance, every
unreachable index holds the sentinel. -/
theorem fix_correct {g : List CEdge} {s : Nat} {d : List Int}
    (hval : ∀ e ∈ g, e.fr < d.length ∧ e.toV < d.length) (hs : s < d.length)
    (hc : ∀ e ∈ g, 0 ≤ e.cost) (hsum : sumCost g < kInf)
    (hfix : ∀ e ∈ g, BFfix d e)
    (hw : WalkInv g s d) (hs0 : d.getD s 0 ≤ 0) :
    ∀ v, (Reachable g s v → SpecDist g s v (d.getD v 0)) ∧
      (v < d.length → ¬ Reachable g s v → d.getD v 0 = kInf) := by
  have hcyc := @nonneg_cycles g s hc
  have upper_path : ∀ v (l : List CEdge), Walk g s v l →
      (walkVerts s l).Nodup → d.getD v 0 ≤ weight l := by
    intro v l hwl hnd
    have hpre := (path_weight_lt hc hsum hwl hnd).2
    have := fix_upper hfix l s v hwl 0 hs0 (by simpa using hpre)
    simpa using this
  have upper_walk : ∀ v (l : List CEdge), Walk g s v l →
      d.getD v 0 ≤ weight l := by
    intro v l hwl
    obtain ⟨l', hw', hnd', hwt'⟩ := walk_to_path hcyc l.length le_rfl hwl
    exact le_trans (upper_path v l' hw' hnd') hwt'
  intro v
  constructor
  · rintro ⟨l, hl⟩
    obtain ⟨l₀, hw₀, hnd₀, -⟩ := walk_to_path hcyc l.length le_rfl hl
    have hlt : d.getD v 0 < kInf :=
      lt_of_le_of_lt (upper_path v l₀ hw₀ hnd₀)
        (path_weight_lt hc hsum hw₀ hnd₀).1
    have hvn : v < d.length := by
      rcases walk_endpoint hw₀ with rfl | ⟨e, he, rfl⟩
      · exact hs
      · exact (hval e he).2
    rcases hw v hvn with hk | ⟨lw, hlw, hwt⟩
    · omega
    · obtain ⟨l₁, hw₁, hnd₁, hwt₁⟩ := walk_to_path hcyc lw.length le_rfl hlw
      have hge : d.getD v 0 ≤ weight l₁ := upper_path v l₁ hw₁ hnd₁
      refine ⟨⟨l₁, hw₁, hnd₁, by omega⟩, fun l' hl' => upper_walk v l' hl'⟩
  · intro hvn hnr
    rcases hw v hvn with hk | ⟨lw, hlw, -⟩
    · exact hk
    · exact absurd ⟨lw, hlw⟩ hnr

theorem bfInitD_length (n fr : Nat) : (bfInitD n fr).length = n := by
  simp [bfInitD]

theorem bfInitD_getD {n fr i : Nat} (hi : i < n) :
    (bfInitD n fr).getD i 0 = if i = fr then (0 : Int) else kInf := by
  unfold bfInitD
  by_cases hif : i = fr
  · subst hif
    rw [if_pos rfl, getD_set_self _ _ (by simpa using hi)]
  · rw [if_neg hif, getD_set_ne _ _ hif]
    simp [List.getD, List.getElem?_replicate, hi]

theorem bfInitD_inv {g : List CEdge} {s n : Nat} (hs : s < n) :
    UBInv (bfInitD n s) ∧ WalkInv g s (bfInitD n s) ∧
      (bfInitD n s).getD s 0 ≤ 0 := by
  have hlen := bfInitD_length n s
  refine ⟨?_, ?_, ?_⟩
  · intro i hi
    rw [hlen] at hi
    rw [bfInitD_getD hi]
    split <;> simp [kInf]
  · intro i hi
    rw [hlen] at hi
    rw [bfInitD_getD hi]
    by_cases hif : i = s
    · subst hif
      rw [if_pos rfl]
      exact Or.inr ⟨[], Walk.nil i, rfl⟩
    · rw [if_neg hif]
      exact Or.inl rfl
  · rw [bfInitD_getD hs, if_pos rfl]

/-- End-to-end correctness of the BellmanFord relaxation loop on a valid
graph with non-negative costs summing below the sentinel. -/
theorem bf_run_correct {g : List CEdge} {n s : Nat}
    (hval : ∀ e ∈ g, e.fr < n ∧ e.toV < n) (hs : s < n)
    (hc : ∀ e ∈ g, 0 ≤ e.cost) (hsum : sumCost g < kInf) :
    ∃ fuel out, bfLoop fuel g (bfInitD n s) = some out ∧ out.length = n ∧
      ∀ v, (Reachable g s v → SpecDist g s v (out.getD v 0)) ∧
        (v < n → ¬ Reachable g s v → out.getD v 0 = kInf) := by
  have hcyc := @nonneg_cycles g s hc
  have hlen := bfInitD_length n s
  obtain ⟨hub, hw, hs0⟩ := @bfInitD_inv g s n hs
  have hval' : ∀ e ∈ g, e.fr < (bfInitD n s).length ∧
      e.toV < (bfInitD n s).length := by
    rw [hlen]; exact hval
  obtain ⟨fuel, out, hout⟩ := bfLoop_term hcyc _ (bfInitD n s) hval' hub hw
    le_rfl
  obtain ⟨holen, hub', hw', hs0', hfix⟩ :=
    bfLoop_some_spec fuel _ out hout hval' hub hw hs0
  rw [hlen] at holen
  refine ⟨fuel, out, hout, holen, ?_⟩
  have := @fix_correct g s out (by rw [holen]; exact hval)
    (by rw [holen]; exact hs) hc hsum hfix hw' hs0'
  intro v
  refine ⟨(this v).1, ?_⟩
  intro hv hnr
  exact (this v).2 (by rw [holen]; exact hv) hnr

/-! ## Dijkstra (`src/Graph.hpp`, class `Dijkstra`) -/

/-- `Dijkstra::Edge`: destination and cost of an outgoing edge. -/
structure DEdge where
  toV : Nat
  cost : Int
deriving DecidableEq, Repr

/-- State of class `Dijkstra`: adjacency lists `m_graph` indexed by vertex
and the distinct-vertex set `m_vertex`. -/
structure Dijkstra where
  m_graph : List (List DEdge)
  m_vertex : List Nat
deriving Repr

/-- `Dijkstra()` default constructor. -/
def Dijkstra.init : Dijkstra := ⟨[], []⟩

/-- `Dijkstra(int v)` constructor: `v` empty adjacency lists. -/
def Dijkstra.initV (v : Nat) : Dijkstra := ⟨List.replicate v [], []⟩

/-- The adjacency-list update `m_graph[from].emplace_back(Edge(to, cost))`
preceded by the conditional `resize` of `addDirectedEdge_`. -/
def adjAdd (adj : List (List DEdge)) (fr toV : Nat) (cost : Int) :
    List (List DEdge) :=
  let gr := if adj.length ≤ max fr toV then
      adj ++ List.replicate (max fr toV + 1 - adj.length) [] else adj
  gr.set fr (gr.getD fr [] ++ [⟨toV, cost⟩])

/-- `Dijkstra::addDirectedEdge_`. -/
def Dijkstra.addDirectedEdge_ (st : Dijkstra) (fr toV : Nat) (cost : Int) :
    Dijkstra :=
  { m_graph := adjAdd st.m_graph fr toV cost,
    m_vertex := vinsert (vinsert st.m_vertex fr) toV }

/-- `Dijkstra::addEdge_`: the directed edge, then
`m_graph[to].emplace_back(Edge(from, cost))` (no second resize; after the
first insertion both indices are in range). -/
def Dijkstra.addEdge_ (st : Dijkstra) (fr toV : Nat) (cost : Int) :
    Dijkstra :=
  let st' := st.addDirectedEdge_ fr toV cost
  { st' with m_graph :=
      st'.m_graph.set toV (st'.m_graph.getD toV [] ++ [⟨fr, cost⟩]) }

/-- The abstract edge list represented by the adjacency lists. -/
def dijEdges (adj : List (List DEdge)) : List CEdge :=
  adj.enum.flatMap (fun p => p.2.map (fun e => ⟨p.1, e.toV, e.cost⟩))

/-- Lexicographic comparison of `(distance, vertex)` pairs, as by
`std::greater<std::pair<int, int>>` driving the priority queue. -/
def pleb (a b : Int × Nat) : Bool :=
  a.1 < b.1 || (a.1 == b.1 && a.2 ≤ b.2)

/-- `top()`/`pop()` of the min-priority queue: selects the lexicographically
least pair and removes it. -/
def popMin (q : List (Int × Nat)) : Option ((Int × Nat) × List (Int × Nat)) :=
  match q with
  | [] => none
  | x :: xs =>
    let m := xs.foldl (fun a b => if pleb a b then a else b) x
    some (m, q.erase m)

theorem popMin_none {q : List (Int × Nat)} (h : popMin q = none) : q = [] := by
  cases q with
  | nil => rfl
  | cons x xs => simp [popMin] at h

theorem foldl_min_mem (xs : List (Int × Nat)) (x : Int × Nat) :
    xs.foldl (fun a b => if pleb a b then a else b) x = x ∨
      xs.foldl (fun a b => if pleb a b then a else b) x ∈ xs := by
  induction xs generalizing x with
  | nil => exact Or.inl rfl
  | cons y ys ih =>
    rw [List.foldl_cons]
    rcases ih (if pleb x y then x else y) with h | h
    · rw [h]
      split
      · exact Or.inl rfl
      · exact Or.inr (by simp)
    · exact Or.inr (by simp [h])

theorem popMin_mem {q : List (Int × Nat)} {p : Int × Nat}
    {rest : List (Int × Nat)} (h : popMin q = some (p, rest)) :
    p ∈ q ∧ rest = q.erase p := by
  cases q with
  | nil => simp [popMin] at h
  | cons x xs =>
    simp only [popMin] at h
    injection h with h'
    injection h' with h1 h2
    subst h1
    refine ⟨?_, h2.symm⟩
    rcases foldl_min_mem xs x with h | h
    · rw [h]; simp
    · simp [h]

theorem mem_dijEdges {adj : List (List DEdge)} {e : CEdge} :
    e ∈ dijEdges adj ↔ ∃ de ∈ adj.getD e.fr [], de.toV = e.toV ∧
      de.cost = e.cost := by
  unfold dijEdges
  rw [List.mem_flatMap]
  constructor
  · rintro ⟨⟨i, es⟩, hp, he⟩
    obtain ⟨de, hde, rfl⟩ := List.mem_map.mp he
    have hi : adj[i]? = some es := List.mk_mem_enum_iff_getElem?.mp hp
    have hes : adj.getD i [] = es := by
      rw [List.getD_eq_getElem?_getD, hi]; rfl
    refine ⟨de, ?_, rfl, rfl⟩
    show de ∈ adj.getD i []
    rw [hes]
    exact hde
  · rintro ⟨de, hde, h1, h2⟩
    by_cases hlt : e.fr < adj.length
    · refine ⟨(e.fr, adj[e.fr]), List.mk_mem_enum_iff_getElem?.mpr (by simp [hlt]), ?_⟩
      rw [List.mem_map]
      refine ⟨de, ?_, by cases e; simp_all⟩
      have : adj.getD e.fr [] = adj[e.fr] := List.getD_eq_getElem adj [] hlt
      rwa [this] at hde
    · rw [List.getD_eq_default _ _ (by omega)] at hde
      simp at hde

theorem getD_append_replicate_nil (adj : List (List DEdge)) (k i : Nat) :
    (adj ++ List.replicate k ([] : List DEdge)).getD i [] = adj.getD i [] := by
  rw [List.getD_eq_getElem?_getD, List.getD_eq_getElem?_getD]
  by_cases hi : i < adj.length
  · rw [List.getElem?_append_left hi]
  · rw [List.getElem?_append_right (by omega)]
    rw [show adj[i]? = none from List.getElem?_eq_none (by omega)]
    rw [List.getElem?_replicate]
    split <;> rfl

/-- Effect of `adjAdd` on the adjacency lists, slot by slot. -/
theorem adjAdd_getD (adj : List (List DEdge)) (fr toV : Nat) (cost : Int)
    (i : Nat) :
    (adjAdd adj fr toV cost).getD i [] =
      if i = fr then adj.getD fr [] ++ [⟨toV, cost⟩] else adj.getD i [] := by
  unfold adjAdd
  set gr := if adj.length ≤ max fr toV then
      adj ++ List.replicate (max fr toV + 1 - adj.length) [] else adj with hgr
  have hget : ∀ j, gr.getD j [] = adj.getD j [] := by
    intro j
    rw [hgr]
    split
    · exact getD_append_replicate_nil adj _ j
    · rfl
  have hfrlen : fr < gr.length := by
    rw [hgr]
    split
    · next h => simp; omega
    · next h => omega
  by_cases hi : i = fr
  · subst hi
    rw [if_pos rfl, getD_set_self _ _ hfrlen, hget]
  · rw [if_neg hi, getD_set_ne _ _ hi, hget]

/-- Membership effect of one directed insertion on the abstract edge list. -/
theorem mem_dijEdges_adjAdd {adj : List (List DEdge)} {fr toV : Nat}
    {cost : Int} {e : CEdge} :
    e ∈ dijEdges (adjAdd adj fr toV cost) ↔
      e ∈ dijEdges adj ∨ e = ⟨fr, toV, cost⟩ := by
  rw [mem_dijEdges, mem_dijEdges]
  rw [adjAdd_getD]
  by_cases hi : e.fr = fr
  · rw [if_pos hi, hi]
    constructor
    · rintro ⟨de, hde, h1, h2⟩
      rcases List.mem_append.mp hde with h | h
      · exact Or.inl ⟨de, h, h1, h2⟩
      · simp only [List.mem_singleton] at h
        subst h
        cases e
        simp_all
    · rintro (⟨de, hde, h1, h2⟩ | rfl)
      · exact ⟨de, List.mem_append_left _ hde, h1, h2⟩
      · exact ⟨⟨toV, cost⟩, List.mem_append_right _ (by simp), rfl, rfl⟩
  · rw [if_neg hi]
    constructor
    · rintro ⟨de, hde, h1, h2⟩
      exact Or.inl ⟨de, hde, h1, h2⟩
    · rintro (⟨de, hde, h1, h2⟩ | rfl)
      · exact ⟨de, hde, h1, h2⟩
      · exact absurd rfl hi

/-- The inner relaxation loop of `Dijkstra::shortestPath_` over the edges
leaving `v`: improved targets are written to `dists` and pushed. -/
def dijRelax (v : Nat) : List DEdge → List Int → List (Int × Nat) →
    List Int × List (Int × Nat)
  | [], d, q => (d, q)
  | e :: es, d, q =>
    if d.getD e.toV 0 > d.getD v 0 + e.cost then
      dijRelax v es (d.set e.toV (d.getD v 0 + e.cost))
        ((d.getD v 0 + e.cost, e.toV) :: q)
    else dijRelax v es d q

/-- The main `while (!pQueue.empty())` loop of `Dijkstra::shortestPath_`,
with explicit fuel. -/
def dijkstraRun : Nat → List (List DEdge) → List (Int × Nat) → List Int →
    Option (List Int)
  | 0, _, _, _ => none
  | fuel + 1, adj, q, d =>
    match popMin q with
    | none => some d
    | some (p, rest) =>
      if d.getD p.2 0 < p.1 then dijkstraRun fuel adj rest d
      else
        let r := dijRelax p.2 (adj.getD p.2 []) d rest
        dijkstraRun fuel adj r.2 r.1

/-- `Dijkstra::shortestPath_(from)`, run for at most `fuel` queue
iterations. -/
def Dijkstra.shortestPath_ (st : Dijkstra) (fr : Nat) (fuel : Nat) :
    Option (List Int) :=
  dijkstraRun fuel st.m_graph [((0 : Int), fr)]
    (bfInitD st.m_vertex.length fr)

/-- Building a `Dijkstra` instance by the corresponding sequence of
`addEdge` / `addDirectedEdge` calls. -/
def buildDij (ops : List Op) : Dijkstra :=
  ops.foldl (fun st o =>
    if o.undirected then st.addEdge_ o.fr o.toV o.cost
    else st.addDirectedEdge_ o.fr o.toV o.cost) Dijkstra.init

theorem dijRelax_length (v : Nat) (es : List DEdge) (d : List Int)
    (q : List (Int × Nat)) :
    (dijRelax v es d q).1.length = d.length := by
  induction es generalizing d q with
  | nil => rfl
  | cons e t ih =>
    unfold dijRelax
    split
    · rw [ih]; simp
    · exact ih d q

theorem dijRelax_le (v : Nat) (es : List DEdge) (d : List Int)
    (q : List (Int × Nat)) (i : Nat) :
    (dijRelax v es d q).1.getD i 0 ≤ d.getD i 0 := by
  induction es generalizing d q with
  | nil => exact le_refl _
  | cons e t ih =>
    unfold dijRelax
    split
    · next hc =>
      refine le_trans (ih _ _) ?_
      by_cases hie : i = e.toV
      · rw [hie]
        by_cases hlen : e.toV < d.length
        · rw [getD_set_self _ _ hlen]
          omega
        · rw [List.set_eq_of_length_le (by omega)]
      · rw [getD_set_ne _ _ hie]
    · exact ih d q

theorem dijRelax_queue_grow (v : Nat) (es : List DEdge) (d : List Int)
    (q : List (Int × Nat)) : ∀ x ∈ q, x ∈ (dijRelax v es d q).2 := by
  induction es generalizing d q with
  | nil => intro x hx; exact hx
  | cons e t ih =>
    unfold dijRelax
    split
    · intro x hx
      exact ih _ _ x (by simp [hx])
    · exact ih d q

/-- Queue soundness: every queued pair dominates the current entry of its
vertex, names a valid vertex, and carries a sub-sentinel key. -/
def QInv (n : Nat) (d : List Int) (q : List (Int × Nat)) : Prop :=
  ∀ pv ∈ q, d.getD pv.2 0 ≤ pv.1 ∧ pv.2 < n ∧ pv.1 < kInf

/-- Worklist invariant: every edge is either relaxed or has its source's
current key pending in the queue (sources currently being processed are
exempt). -/
def PendInv (g : List CEdge) (d : List Int) (q : List (Int × Nat))
    (v : Nat) : Prop :=
  ∀ e ∈ g, e.fr ≠ v →
    d.getD e.toV 0 ≤ d.getD e.fr 0 + e.cost ∨ (d.getD e.fr 0, e.fr) ∈ q

theorem dijRelax_inv {g : List CEdge} {s n : Nat}
    (hval : ∀ e ∈ g, e.fr < n ∧ e.toV < n) (hc : ∀ e ∈ g, 0 ≤ e.cost)
    {v : Nat} :
    ∀ (es : List DEdge) (d : List Int) (q : List (Int × Nat)),
      (∀ de ∈ es, (⟨v, de.toV, de.cost⟩ : CEdge) ∈ g) →
      d.length = n → UBInv d → WalkInv g s d → d.getD v 0 ≠ kInf →
      QInv n d q → PendInv g d q v →
      (dijRelax v es d q).1.length = n ∧ UBInv (dijRelax v es d q).1 ∧
        WalkInv g s (dijRelax v es d q).1 ∧
        (dijRelax v es d q).1.getD v 0 = d.getD v 0 ∧
        QInv n (dijRelax v es d q).1 (dijRelax v es d q).2 ∧
        PendInv g (dijRelax v es d q).1 (dijRelax v es d q).2 v ∧
        (∀ de ∈ es, (dijRelax v es d q).1.getD de.toV 0 ≤
          (dijRelax v es d q).1.getD v 0 + de.cost) := by
  intro es
  induction es with
  | nil =>
    intro d q _ hlen hub hw hvk hq hp
    exact ⟨hlen, hub, hw, rfl, hq, hp, by simp⟩
  | cons e t ih =>
    intro d q hes hlen hub hw hvk hq hp
    have heg : (⟨v, e.toV, e.cost⟩ : CEdge) ∈ g := hes e (by simp)
    have hetV : e.toV < n := (hval _ heg).2
    have hvlt : v < n := (hval _ heg).1
    have hcost : 0 ≤ e.cost := hc _ heg
    rw [show dijRelax v (e :: t) d q =
      (if d.getD e.toV 0 > d.getD v 0 + e.cost then
        dijRelax v t (d.set e.toV (d.getD v 0 + e.cost))
          ((d.getD v 0 + e.cost, e.toV) :: q)
      else dijRelax v t d q) from rfl]
    by_cases hcnd : d.getD e.toV 0 > d.getD v 0 + e.cost
    · rw [if_pos hcnd]
      have hvne : v ≠ e.toV := by
        intro hve
        rw [← hve] at hcnd
        omega
      set w := d.getD v 0 + e.cost with hwdef
      set d₁ := d.set e.toV w with hd₁
      have hd₁v : d₁.getD v 0 = d.getD v 0 := getD_set_ne _ _ hvne
      have hd₁len : d₁.length = n := by rw [hd₁, List.length_set, hlen]
      have hd₁toV : d₁.getD e.toV 0 = w :=
        getD_set_self _ _ (by rw [hlen]; exact hetV)
      have hd₁le : ∀ i, d₁.getD i 0 ≤ d.getD i 0 := by
        intro i
        by_cases hie : i = e.toV
        · rw [hie, hd₁toV]; omega
        · rw [hd₁, getD_set_ne _ _ hie]
      have hub₁ : UBInv d₁ := by
        intro i hi
        rw [hd₁len] at hi
        have := hub i (by rw [hlen]; exact hi)
        have := hd₁le i
        rw [hlen] at *
        omega
      have hwk₁ : WalkInv g s d₁ := by
        intro i hi
        rw [hd₁len] at hi
        by_cases hie : i = e.toV
        · rw [hie, hd₁toV]
          rcases hw v (by rw [hlen]; exact hvlt) with hk | ⟨l, hl, hwt⟩
          · exact absurd hk hvk
          · exact Or.inr ⟨l ++ [⟨v, e.toV, e.cost⟩],
              Walk.append hl (Walk.cons _ _ [] heg (Walk.nil _)), by
                rw [weight_append, hwt, weight_cons, weight_nil, hwdef]
                ring⟩
        · rw [hd₁, getD_set_ne _ _ hie]
          exact hw i (by rw [hlen]; exact hi)
      have hq₁ : QInv n d₁ ((w, e.toV) :: q) := by
        intro pv hpv
        rcases List.mem_cons.mp hpv with rfl | hpv'
        · refine ⟨le_of_eq hd₁toV, hetV, ?_⟩
          have := hub e.toV (by rw [hlen]; exact hetV)
          omega
        · obtain ⟨h1, h2, h3⟩ := hq pv hpv'
          exact ⟨le_trans (hd₁le pv.2) h1, h2, h3⟩
      have hp₁ : PendInv g d₁ ((w, e.toV) :: q) v := by
        intro e' he' hfr
        by_cases hfre : e'.fr = e.toV
        · right
          rw [hfre, hd₁toV]
          simp
        · have : d₁.getD e'.fr 0 = d.getD e'.fr 0 := by
            rw [hd₁, getD_set_ne _ _ hfre]
          rcases hp e' he' hfr with hle | hmem
          · left
            rw [this]
            exact le_trans (hd₁le e'.toV) hle
          · right
            rw [this]
            exact List.mem_cons_of_mem _ hmem
      have hvk₁ : d₁.getD v 0 ≠ kInf := by rw [hd₁v]; exact hvk
      obtain ⟨r1, r2, r3, r4, r5, r6, r7⟩ := ih d₁ ((w, e.toV) :: q)
        (fun de hde => hes de (by simp [hde])) hd₁len hub₁ hwk₁ hvk₁ hq₁ hp₁
      refine ⟨r1, r2, r3, by rw [r4, hd₁v], r5, r6, ?_⟩
      intro de hde
      rcases List.mem_cons.mp hde with rfl | hde'
      · have hle := dijRelax_le v t d₁ ((w, de.toV) :: q) de.toV
        rw [hd₁toV] at hle
        rw [r4, hd₁v]
        omega
      · exact r7 de hde'
    · rw [if_neg hcnd]
      obtain ⟨r1, r2, r3, r4, r5, r6, r7⟩ := ih d q
        (fun de hde => hes de (by simp [hde])) hlen hub hw hvk hq hp
      refine ⟨r1, r2, r3, r4, r5, r6, ?_⟩
      intro de hde
      rcases List.mem_cons.mp hde with rfl | hde'
      · have hle := dijRelax_le v t d q de.toV
        rw [r4]
        omega
      · exact r7 de hde'

/-- Unexempted worklist invariant, holding between loop iterations. -/
def FullPend (g : List CEdge) (d : List Int) (q : List (Int × Nat)) : Prop :=
  ∀ e ∈ g, d.getD e.toV 0 ≤ d.getD e.fr 0 + e.cost ∨
    (d.getD e.fr 0, e.fr) ∈ q

theorem dijRun_some {adj : List (List DEdge)} {g : List CEdge} {s n : Nat}
    (hg : ∀ e, e ∈ g ↔ e ∈ dijEdges adj)
    (hval : ∀ e ∈ g, e.fr < n ∧ e.toV < n)
    (hc : ∀ e ∈ g, 0 ≤ e.cost) :
    ∀ (fuel : Nat) (q : List (Int × Nat)) (d out : List Int),
      dijkstraRun fuel adj q d = some out →
      d.length = n → UBInv d → WalkInv g s d → d.getD s 0 ≤ 0 →
      QInv n d q → FullPend g d q →
      out.length = n ∧ UBInv out ∧ WalkInv g s out ∧ out.getD s 0 ≤ 0 ∧
        ∀ e ∈ g, BFfix out e := by
  intro fuel
  induction fuel with
  | zero => intro q d out h; simp [dijkstraRun] at h
  | succ fuel ih =>
    intro q d out h hlen hub hw hs0 hq hfp
    rw [show dijkstraRun (fuel + 1) adj q d =
      (match popMin q with
      | none => some d
      | some (p, rest) =>
        if d.getD p.2 0 < p.1 then dijkstraRun fuel adj rest d
        else
          let r := dijRelax p.2 (adj.getD p.2 []) d rest
          dijkstraRun fuel adj r.2 r.1) from rfl] at h
    cases hpop : popMin q with
    | none =>
      rw [hpop] at h
      obtain rfl : d = out := by injection h
      refine ⟨hlen, hub, hw, hs0, ?_⟩
      intro e he
      rcases hfp e he with hle | hmem
      · exact Or.inr hle
      · rw [popMin_none hpop] at hmem
        simp at hmem
    | some pr =>
      obtain ⟨p, rest⟩ := pr
      rw [hpop] at h
      dsimp only at h
      obtain ⟨hpmem, hrest⟩ := popMin_mem hpop
      by_cases hstale : d.getD p.2 0 < p.1
      · rw [if_pos hstale] at h
        refine ih rest d out h hlen hub hw hs0 ?_ ?_
        · intro pv hpv
          exact hq pv (List.erase_subset p q (hrest ▸ hpv))
        · intro e he
          rcases hfp e he with hle | hmem
          · exact Or.inl hle
          · right
            rw [hrest]
            refine (List.mem_erase_of_ne ?_).mpr hmem
            intro hpe
            rw [← hpe] at hstale
            simp at hstale
      · rw [if_neg hstale] at h
        obtain ⟨hqle, hqn, hqk⟩ := hq p hpmem
        have hdp : d.getD p.2 0 = p.1 := by omega
        have hdpk : d.getD p.2 0 ≠ kInf := by
          rw [hdp]
          unfold kInf at hqk ⊢
          omega
        have hes : ∀ de ∈ adj.getD p.2 [],
            (⟨p.2, de.toV, de.cost⟩ : CEdge) ∈ g := by
          intro de hde
          exact (hg _).mpr (mem_dijEdges.mpr ⟨de, hde, rfl, rfl⟩)
        have hqrest : QInv n d rest := by
          intro pv hpv
          exact hq pv (List.erase_subset p q (hrest ▸ hpv))
        have hprest : PendInv g d rest p.2 := by
          intro e he hfr
          rcases hfp e he with hle | hmem
          · exact Or.inl hle
          · right
            rw [hrest]
            refine (List.mem_erase_of_ne ?_).mpr hmem
            intro hpe
            exact hfr (congrArg Prod.snd hpe)
        obtain ⟨r1, r2, r3, r4, r5, r6, r7⟩ := dijRelax_inv hval hc
          (adj.getD p.2 []) d rest hes hlen hub hw hdpk hqrest hprest
        refine ih _ _ out h r1 r2 r3 ?_ r5 ?_
        · exact le_trans (dijRelax_le p.2 (adj.getD p.2 []) d rest s) hs0
        · intro e he
          by_cases hfr : e.fr = p.2
          · left
            obtain ⟨de, hde, h1, h2⟩ := mem_dijEdges.mp ((hg e).mp he)
            rw [hfr] at hde
            have := r7 de hde
            rw [h1, h2] at this
            rw [hfr]
            exact this
          · exact r6 e he hfr

theorem dijRelax_sum (v : Nat) :
    ∀ (es : List DEdge) (d : List Int) (q : List (Int × Nat)),
      (∀ de ∈ es, de.toV < d.length) →
      (dijRelax v es d q).1.sum ≤ d.sum ∧
        (dijRelax v es d q = (d, q) ∨ (dijRelax v es d q).1.sum < d.sum) := by
  intro es
  induction es with
  | nil => intro d q _; exact ⟨le_refl _, Or.inl rfl⟩
  | cons e t ih =>
    intro d q hv
    rw [show dijRelax v (e :: t) d q =
      (if d.getD e.toV 0 > d.getD v 0 + e.cost then
        dijRelax v t (d.set e.toV (d.getD v 0 + e.cost))
          ((d.getD v 0 + e.cost, e.toV) :: q)
      else dijRelax v t d q) from rfl]
    by_cases hcnd : d.getD e.toV 0 > d.getD v 0 + e.cost
    · rw [if_pos hcnd]
      have hlt : (d.set e.toV (d.getD v 0 + e.cost)).sum < d.sum := by
        rw [sum_set _ (hv e (by simp))]
        omega
      obtain ⟨h1, -⟩ := ih (d.set e.toV (d.getD v 0 + e.cost))
        ((d.getD v 0 + e.cost, e.toV) :: q)
        (fun de hde => by simpa using hv de (by simp [hde]))
      exact ⟨by omega, Or.inr (by omega)⟩
    · rw [if_neg hcnd]
      exact ih d q (fun de hde => hv de (by simp [hde]))

theorem dijRun_term {adj : List (List DEdge)} {g : List CEdge} {s n : Nat}
    (hg : ∀ e, e ∈ g ↔ e ∈ dijEdges adj)
    (hval : ∀ e ∈ g, e.fr < n ∧ e.toV < n)
    (hc : ∀ e ∈ g, 0 ≤ e.cost) :
    ∀ (k b : Nat) (q : List (Int × Nat)) (d : List Int),
      d.length = n → UBInv d → WalkInv g s d → QInv n d q → FullPend g d q →
      (d.sum + (n : Int) * sumAbs g).toNat ≤ k → q.length ≤ b →
      ∃ fuel out, dijkstraRun fuel adj q d = some out := by
  have hcyc := @nonneg_cycles g s hc
  intro k
  induction k using Nat.strong_induction_on with
  | _ k ihk =>
  intro b
  induction b with
  | zero =>
    intro q d hlen hub hw hq hfp hk hb
    have hqnil : q = [] := List.length_eq_zero.mp (Nat.le_zero.mp hb)
    subst hqnil
    exact ⟨1, d, by simp [dijkstraRun, popMin]⟩
  | succ b ihb =>
    intro q d hlen hub hw hq hfp hk hb
    cases hpop : popMin q with
    | none =>
      refine ⟨1, d, ?_⟩
      rw [show dijkstraRun 1 adj q d =
        (match popMin q with
        | none => some d
        | some (p, rest) =>
          if d.getD p.2 0 < p.1 then dijkstraRun 0 adj rest d
          else
            let r := dijRelax p.2 (adj.getD p.2 []) d rest
            dijkstraRun 0 adj r.2 r.1) from rfl, hpop]
    | some pr =>
      obtain ⟨p, rest⟩ := pr
      obtain ⟨hpmem, hrest⟩ := popMin_mem hpop
      have hrlen : rest.length ≤ b := by
        rw [hrest, List.length_erase_of_mem hpmem]
        omega
      by_cases hstale : d.getD p.2 0 < p.1
      · obtain ⟨fuel, out, hout⟩ := ihb rest d hlen hub hw
          (fun pv hpv => hq pv (List.erase_subset p q (hrest ▸ hpv)))
          (by
            intro e he
            rcases hfp e he with hle | hmem
            · exact Or.inl hle
            · right
              rw [hrest]
              refine (List.mem_erase_of_ne ?_).mpr hmem
              intro hpe
              rw [← hpe] at hstale
              simp at hstale) hk hrlen
        refine ⟨fuel + 1, out, ?_⟩
        rw [show dijkstraRun (fuel + 1) adj q d =
          (match popMin q with
          | none => some d
          | some (p, rest) =>
            if d.getD p.2 0 < p.1 then dijkstraRun fuel adj rest d
            else
              let r := dijRelax p.2 (adj.getD p.2 []) d rest
              dijkstraRun fuel adj r.2 r.1) from rfl, hpop]
        dsimp only
        rw [if_pos hstale]
        exact hout
      · obtain ⟨hqle, hqn, hqk⟩ := hq p hpmem
        have hdp : d.getD p.2 0 = p.1 := by omega
        have hdpk : d.getD p.2 0 ≠ kInf := by
          rw [hdp]
          unfold kInf at hqk ⊢
          omega
        have hes : ∀ de ∈ adj.getD p.2 [],
            (⟨p.2, de.toV, de.cost⟩ : CEdge) ∈ g := by
          intro de hde
          exact (hg _).mpr (mem_dijEdges.mpr ⟨de, hde, rfl, rfl⟩)
        have hqrest : QInv n d rest := by
          intro pv hpv
          exact hq pv (List.erase_subset p q (hrest ▸ hpv))
        have hprest : PendInv g d rest p.2 := by
          intro e he hfr
          rcases hfp e he with hle | hmem
          · exact Or.inl hle
          · right
            rw [hrest]
            refine (List.mem_erase_of_ne ?_).mpr hmem
            intro hpe
            exact hfr (congrArg Prod.snd hpe)
        obtain ⟨r1, r2, r3, r4, r5, r6, r7⟩ := dijRelax_inv hval hc
          (adj.getD p.2 []) d rest hes hlen hub hw hdpk hqrest hprest
        have hfp' : FullPend g (dijRelax p.2 (adj.getD p.2 []) d rest).1
            (dijRelax p.2 (adj.getD p.2 []) d rest).2 := by
          intro e he
          by_cases hfr : e.fr = p.2
          · left
            obtain ⟨de, hde, h1, h2⟩ := mem_dijEdges.mp ((hg e).mp he)
            rw [hfr] at hde
            have := r7 de hde
            rw [h1, h2] at this
            rw [hfr]
            exact this
          · exact r6 e he hfr
        obtain ⟨hsle, hcases⟩ := dijRelax_sum p.2 (adj.getD p.2 []) d rest
          (fun de hde => by rw [hlen]; exact (hval _ (hes de hde)).2)
        rcases hcases with hsame | hstrict
        · obtain ⟨fuel, out, hout⟩ := ihb rest d hlen hub hw hqrest
            (by
              have := hfp'
              rw [hsame] at this
              exact this) hk hrlen
          refine ⟨fuel + 1, out, ?_⟩
          rw [show dijkstraRun (fuel + 1) adj q d =
            (match popMin q with
            | none => some d
            | some (p, rest) =>
              if d.getD p.2 0 < p.1 then dijkstraRun fuel adj rest d
              else
                let r := dijRelax p.2 (adj.getD p.2 []) d rest
                dijkstraRun fuel adj r.2 r.1) from rfl, hpop]
          dsimp only
          rw [if_neg hstale, hsame]
          exact hout
        · have hlb : -(((dijRelax p.2 (adj.getD p.2 []) d rest).1.length : Int) *
              sumAbs g) ≤ (dijRelax p.2 (adj.getD p.2 []) d rest).1.sum :=
            list_sum_lb _ _ (walkInv_entry_lb hcyc r3)
          rw [r1] at hlb
          have hk' : ((dijRelax p.2 (adj.getD p.2 []) d rest).1.sum +
              (n : Int) * sumAbs g).toNat < k := by
            omega
          obtain ⟨fuel, out, hout⟩ := ihk _ hk'
            (dijRelax p.2 (adj.getD p.2 []) d rest).2.length _ _
            r1 r2 r3 r5 hfp' (by omega) le_rfl
          refine ⟨fuel + 1, out, ?_⟩
          rw [show dijkstraRun (fuel + 1) adj q d =
            (match popMin q with
            | none => some d
            | some (p, rest) =>
              if d.getD p.2 0 < p.1 then dijkstraRun fuel adj rest d
              else
                let r := dijRelax p.2 (adj.getD p.2 []) d rest
                dijkstraRun fuel adj r.2 r.1) from rfl, hpop]
          dsimp only
          rw [if_neg hstale]
          exact hout

/-- End-to-end correctness of the Dijkstra main loop on a valid graph with
non-negative costs summing below the sentinel. -/
theorem dij_run_correct {adj : List (List DEdge)} {g : List CEdge} {n s : Nat}
    (hg : ∀ e, e ∈ g ↔ e ∈ dijEdges adj)
    (hval : ∀ e ∈ g, e.fr < n ∧ e.toV < n)
    (hs : s < n) (hc : ∀ e ∈ g, 0 ≤ e.cost) (hsum : sumCost g < kInf) :
    ∃ fuel out, dijkstraRun fuel adj [((0 : Int), s)] (bfInitD n s) =
        some out ∧ out.length = n ∧
      ∀ v, (Reachable g s v → SpecDist g s v (out.getD v 0)) ∧
        (v < n → ¬ Reachable g s v → out.getD v 0 = kInf) := by
  have hlen := bfInitD_length n s
  obtain ⟨hub, hw, hs0⟩ := @bfInitD_inv g s n hs
  have hq : QInv n (bfInitD n s) [((0 : Int), s)] := by
    intro pv hpv
    rcases List.mem_singleton.mp hpv with rfl
    refine ⟨le_of_eq (by rw [bfInitD_getD hs, if_pos rfl]), hs, by
      unfold kInf; omega⟩
  have hfp : FullPend g (bfInitD n s) [((0 : Int), s)] := by
    intro e he
    by_cases hfr : e.fr = s
    · right
      rw [hfr, bfInitD_getD hs, if_pos rfl]
      simp
    · left
      have h1 : (bfInitD n s).getD e.fr 0 = kInf := by
        rw [bfInitD_getD (hval e he).1, if_neg hfr]
      have h2 : (bfInitD n s).getD e.toV 0 ≤ kInf :=
        hub e.toV (by rw [hlen]; exact (hval e he).2)
      have h3 := hc e he
      rw [h1]
      omega
  obtain ⟨fuel, out, hout⟩ := dijRun_term hg hval hc
    ((bfInitD n s).sum + (n : Int) * sumAbs g).toNat
    [((0 : Int), s)].length _ _ (by rw [hlen]) hub hw hq hfp le_rfl le_rfl
  obtain ⟨holen, hub', hw', hs0', hfix⟩ := dijRun_some hg hval hc fuel _ _ out
    hout (by rw [hlen]) hub hw hs0 hq hfp
  refine ⟨fuel, out, hout, holen, ?_⟩
  have := @fix_correct g s out (by rw [holen]; exact hval)
    (by rw [holen]; exact hs) hc hsum hfix hw' hs0'
  intro v
  exact ⟨(this v).1, fun hv hnr => (this v).2 (by rw [holen]; exact hv) hnr⟩

/-! ## WarshalFloyd (`src/Graph.hpp`, class `WarshalFloyd`) -/

/-- `WarshalFloyd::kDefaultSize`. -/
def kDefaultSize : Nat := 16

/-- State of class `WarshalFloyd`: the matrix dimension `nVertex`, the flat
row-major matrix `m_graph` of `nVertex * nVertex` cells (more after a
growth, whose stale bookkeeping is modelled exactly as coded), and the
distinct-vertex set `m_vertex`. -/
structure WarshalFloyd where
  nVertex : Nat
  m_graph : List Int
  m_vertex : List Nat
deriving Repr

/-- The matrix built by both constructors: all cells `kInf`, then each
diagonal cell `i * v + i` set to `0`. -/
def wfInitMat (v : Nat) : List Int :=
  (List.range v).foldl (fun m i => m.set (i * v + i) 0)
    (List.replicate (v * v) kInf)

/-- `WarshalFloyd(int v)` constructor. -/
def WarshalFloyd.initV (v : Nat) : WarshalFloyd :=
  ⟨v, wfInitMat v, []⟩

/-- `WarshalFloyd()` default constructor (`kDefaultSize = 16`). -/
def WarshalFloyd.init : WarshalFloyd := WarshalFloyd.initV kDefaultSize

/-- The grown matrix of `addDirectedEdge_` when `nVertex <= max(from, to)`:
after the copy loop, the two `kInf` fill loops and the diagonal loop, cell
`(i, j)` of the new `m * m` matrix (stride `m = max(from, to) + 1`) holds
`0` on the diagonal, the old cell for `i, j < nVertex`, and `kInf`
elsewhere. -/
def wfGrowMat (n m : Nat) (old : List Int) : List Int :=
  (List.range (m * m)).map (fun idx =>
    let i := idx / m
    let j := idx % m
    if i = j then 0
    else if i < n ∧ j < n then old.getD (i * n + j) 0
    else kInf)

/-- `WarshalFloyd::addDirectedEdge_`, exactly as coded: after a growth the
member `nVertex` is left unchanged and the final write uses the stale
stride `from * nVertex + to`. -/
def WarshalFloyd.addDirectedEdge_ (st : WarshalFloyd) (fr toV : Nat)
    (cost : Int) : WarshalFloyd :=
  let m := max fr toV
  let g' := if st.nVertex ≤ m then wfGrowMat st.nVertex (m + 1) st.m_graph
    else st.m_graph
  { nVertex := st.nVertex,
    m_graph := g'.set (fr * st.nVertex + toV) cost,
    m_vertex := vinsert (vinsert st.m_vertex fr) toV }

/-- `WarshalFloyd::addEdge_`: the directed insertion, then the reverse write
`m_graph[to * nVertex + from] = cost`. -/
def WarshalFloyd.addEdge_ (st : WarshalFloyd) (fr toV : Nat) (cost : Int) :
    WarshalFloyd :=
  let st' := st.addDirectedEdge_ fr toV cost
  { st' with m_graph := st'.m_graph.set (toV * st'.nVertex + fr) cost }

/-- Innermost loop of `WarshalFloyd::shortestPath_` (fixed `k` and `i`,
`j` over `0..n-1`). -/
def floydRow (n k i : Nat) (mat : List Int) : List Int :=
  (List.range n).foldl (fun m j =>
    m.set (i * n + j)
      (min (m.getD (i * n + j) 0) (m.getD (i * n + k) 0 + m.getD (k * n + j) 0)))
    mat

/-- Middle loop (fixed `k`, `i` over `0..n-1`). -/
def floydPass (n k : Nat) (mat : List Int) : List Int :=
  (List.range n).foldl (fun m i => floydRow n k i m) mat

/-- The full triple loop of `WarshalFloyd::shortestPath_`. -/
def wfFloyd (n : Nat) (mat : List Int) : List Int :=
  (List.range n).foldl (fun m k => floydPass n k m) mat

/-- `WarshalFloyd::shortestPath_(from)`: relaxes the matrix in place and
returns the row of `from`; the mutated matrix is part of the result. -/
def WarshalFloyd.shortestPath_ (st : WarshalFloyd) (fr : Nat) :
    List Int × WarshalFloyd :=
  let g' := wfFloyd st.nVertex st.m_graph
  ((List.range st.nVertex).map (fun j => g'.getD (fr * st.nVertex + j) 0),
    { st with m_graph := g' })

/-- Building a `WarshalFloyd` instance of initial capacity `v` by `addEdge`
/ `addDirectedEdge` calls. -/
def buildWF (v : Nat) (ops : List Op) : WarshalFloyd :=
  ops.foldl (fun st o =>
    if o.undirected then st.addEdge_ o.fr o.toV o.cost
    else st.addDirectedEdge_ o.fr o.toV o.cost) (WarshalFloyd.initV v)

theorem idx_inj {n i j a b : Nat} (hj : j < n) (hb : b < n)
    (h : i * n + j = a * n + b) : i = a ∧ j = b := by
  have hia : i = a := by
    rcases Nat.lt_trichotomy i a with hlt | heq | hgt
    · nlinarith
    · exact heq
    · nlinarith
  subst hia
  omega

/-- Cost of the last write to cell `(i, j)` among the writes `es`, with
default `dflt`. -/
def lastWrite (es : List CEdge) (i j : Nat) (dflt : Int) : Int :=
  match es.reverse.find? (fun e => e.fr == i && e.toV == j) with
  | some e => e.cost
  | none => dflt

theorem lastWrite_nil (i j : Nat) (dflt : Int) :
    lastWrite [] i j dflt = dflt := rfl

theorem lastWrite_append_one (es : List CEdge) (e : CEdge) (i j : Nat)
    (dflt : Int) :
    lastWrite (es ++ [e]) i j dflt =
      if e.fr = i ∧ e.toV = j then e.cost else lastWrite es i j dflt := by
  unfold lastWrite
  rw [List.reverse_append]
  simp only [List.reverse_singleton, List.singleton_append, List.find?_cons]
  by_cases hc : e.fr = i ∧ e.toV = j
  · rw [if_pos hc]
    have : (e.fr == i && e.toV == j) = true := by
      simp [hc.1, hc.2]
    rw [this]
  · rw [if_neg hc]
    have : (e.fr == i && e.toV == j) = false := by
      rcases Decidable.not_and_iff_or_not.mp hc with h | h <;> simp [h]
    rw [this]

theorem wfInitMat_length (v : Nat) : (wfInitMat v).length = v * v := by
  unfold wfInitMat
  have : ∀ (t : List Nat) (m : List Int),
      (t.foldl (fun m i => m.set (i * v + i) 0) m).length = m.length := by
    intro t
    induction t with
    | nil => intro m; rfl
    | cons a t ih => intro m; rw [List.foldl_cons, ih]; simp
  rw [this]
  simp

theorem foldDiag_length (v : Nat) (t : List Nat) (m : List Int) :
    (t.foldl (fun m i => m.set (i * v + i) 0) m).length = m.length := by
  induction t generalizing m with
  | nil => rfl
  | cons a t ih => rw [List.foldl_cons, ih]; simp

theorem foldDiag_getD (v : Nat) (m : List Int) (hlen : m.length = v * v) :
    ∀ (t : Nat), t ≤ v → ∀ a b, a < v → b < v →
      ((List.range t).foldl (fun m i => m.set (i * v + i) 0) m).getD
        (a * v + b) 0 =
        if a = b ∧ a < t then 0 else m.getD (a * v + b) 0 := by
  intro t
  induction t with
  | zero =>
    intro _ a b ha hb
    rw [List.range_zero, List.foldl_nil, if_neg (by omega)]
  | succ t ih =>
    intro ht a b ha hb
    rw [List.range_succ, List.foldl_append, List.foldl_cons, List.foldl_nil]
    have hlen' : ((List.range t).foldl (fun m i => m.set (i * v + i) 0)
        m).length = v * v := by
      rw [foldDiag_length]; exact hlen
    by_cases hab : a = t ∧ b = t
    · obtain ⟨rfl, rfl⟩ := hab
      rw [getD_set_self _ _ (by rw [hlen']; nlinarith)]
      rw [if_pos ⟨rfl, by omega⟩]
    · have hne : a * v + b ≠ t * v + t := by
        intro hcon
        obtain ⟨h1, h2⟩ := idx_inj hb (by omega) hcon
        exact hab ⟨h1, h2⟩
      rw [getD_set_ne _ _ hne, ih (by omega) a b ha hb]
      by_cases he : a = b ∧ a < t
      · rw [if_pos he, if_pos ⟨he.1, by omega⟩]
      · rw [if_neg he, if_neg (by
          intro ⟨h1, h2⟩
          rcases Nat.lt_or_ge a t with h | h
          · exact he ⟨h1, h⟩
          · have hat : a = t := by omega
            exact hab ⟨hat, h1 ▸ hat⟩)]

theorem wfInitMat_getD {v i j : Nat} (hi : i < v) (hj : j < v) :
    (wfInitMat v).getD (i * v + j) 0 = if i = j then 0 else kInf := by
  unfold wfInitMat
  rw [foldDiag_getD v _ (by simp) v le_rfl i j hi hj]
  have hrep : (List.replicate (v * v) kInf).getD (i * v + j) 0 = kInf := by
    rw [List.getD_eq_getElem?_getD, List.getElem?_replicate,
      if_pos (by nlinarith)]
    rfl
  rw [hrep]
  by_cases hij : i = j
  · rw [if_pos ⟨hij, hi⟩, if_pos hij]
  · rw [if_neg (fun h => hij h.1), if_neg hij]

theorem opEdges_append (a b : List Op) :
    opEdges (a ++ b) = opEdges a ++ opEdges b := by
  unfold opEdges
  rw [List.flatMap_append]

theorem buildWF_nVertex (v : Nat) (ops : List Op) :
    (buildWF v ops).nVertex = v := by
  unfold buildWF
  have : ∀ (t : List Op) (st : WarshalFloyd),
      (t.foldl (fun st o =>
        if o.undirected then st.addEdge_ o.fr o.toV o.cost
        else st.addDirectedEdge_ o.fr o.toV o.cost) st).nVertex =
        st.nVertex := by
    intro t
    induction t with
    | nil => intro st; rfl
    | cons o t ih =>
      intro st
      rw [List.foldl_cons, ih]
      by_cases hu : o.undirected <;>
        simp [hu, WarshalFloyd.addEdge_, WarshalFloyd.addDirectedEdge_]
  exact this ops _

theorem buildWF_mat (v : Nat) (ops : List Op)
    (hids : ∀ e ∈ opEdges ops, e.fr < v ∧ e.toV < v) :
    (buildWF v ops).m_graph.length = v * v ∧
    ∀ i j, i < v → j < v → (buildWF v ops).m_graph.getD (i * v + j) 0 =
      lastWrite (opEdges ops) i j (if i = j then 0 else kInf) := by
  induction ops using List.reverseRecOn with
  | nil =>
    refine ⟨wfInitMat_length v, ?_⟩
    intro i j hi hj
    rw [show opEdges [] = [] from rfl, lastWrite_nil]
    exact wfInitMat_getD hi hj
  | append_singleton es o ih =>
    have hids' : ∀ e ∈ opEdges es, e.fr < v ∧ e.toV < v := by
      intro e he
      exact hids e (by rw [opEdges_append]; exact List.mem_append_left _ he)
    obtain ⟨ihlen, ihget⟩ := ih hids'
    have hnv : (buildWF v es).nVertex = v := buildWF_nVertex v es
    have hbapp : buildWF v (es ++ [o]) =
        (if o.undirected then (buildWF v es).addEdge_ o.fr o.toV o.cost
        else (buildWF v es).addDirectedEdge_ o.fr o.toV o.cost) := by
      unfold buildWF
      rw [List.foldl_append, List.foldl_cons, List.foldl_nil]
    have hofr : o.fr < v ∧ o.toV < v := by
      have : (⟨o.fr, o.toV, o.cost⟩ : CEdge) ∈ opEdges (es ++ [o]) := by
        rw [opEdges_append]
        refine List.mem_append_right _ ?_
        unfold opEdges
        by_cases hu : o.undirected <;> simp [hu]
      exact hids _ this
    have hngrow : ¬ v ≤ max o.fr o.toV := by omega
    have hdir : ((buildWF v es).addDirectedEdge_ o.fr o.toV o.cost).m_graph =
        (buildWF v es).m_graph.set (o.fr * v + o.toV) o.cost := by
      simp only [WarshalFloyd.addDirectedEdge_, hnv, if_neg hngrow]
    by_cases hu : o.undirected
    · rw [hbapp, if_pos hu]
      have hmat : ((buildWF v es).addEdge_ o.fr o.toV o.cost).m_graph =
          ((buildWF v es).m_graph.set (o.fr * v + o.toV) o.cost).set
            (o.toV * v + o.fr) o.cost := by
        unfold WarshalFloyd.addEdge_
        simp only [WarshalFloyd.addDirectedEdge_, hnv, if_neg hngrow]
      rw [hmat]
      constructor
      · simp [ihlen]
      intro i j hi hj
      rw [show opEdges (es ++ [o]) =
        (opEdges es ++ [⟨o.fr, o.toV, o.cost⟩]) ++ [⟨o.toV, o.fr, o.cost⟩] by
          rw [opEdges_append]
          unfold opEdges
          simp [hu]]
      rw [lastWrite_append_one, lastWrite_append_one]
      by_cases h2 : o.toV = i ∧ o.fr = j
      · rw [if_pos (by simp [h2.1, h2.2])]
        rw [← h2.1, ← h2.2] at *
        rw [getD_set_self _ _ (by simp; rw [ihlen]; nlinarith)]
      · rw [if_neg (by simpa using h2)]
        have hne2 : i * v + j ≠ o.toV * v + o.fr := by
          intro hcon
          obtain ⟨ha, hb⟩ := idx_inj hj hofr.1 hcon
          exact h2 ⟨ha.symm, hb.symm⟩
        rw [getD_set_ne _ _ hne2]
        by_cases h1 : o.fr = i ∧ o.toV = j
        · rw [if_pos (by simp [h1.1, h1.2])]
          rw [← h1.1, ← h1.2] at *
          rw [getD_set_self _ _ (by rw [ihlen]; nlinarith)]
        · rw [if_neg (by simpa using h1)]
          have hne1 : i * v + j ≠ o.fr * v + o.toV := by
            intro hcon
            obtain ⟨ha, hb⟩ := idx_inj hj hofr.2 hcon
            exact h1 ⟨ha.symm, hb.symm⟩
          rw [getD_set_ne _ _ hne1]
          exact ihget i j hi hj
    · rw [hbapp, if_neg hu]
      rw [show ((buildWF v es).addDirectedEdge_ o.fr o.toV o.cost).m_graph =
        (buildWF v es).m_graph.set (o.fr * v + o.toV) o.cost from hdir]
      constructor
      · simp [ihlen]
      intro i j hi hj
      rw [show opEdges (es ++ [o]) = opEdges es ++ [⟨o.fr, o.toV, o.cost⟩] by
        rw [opEdges_append]
        unfold opEdges
        simp [hu]]
      rw [lastWrite_append_one]
      by_cases h1 : o.fr = i ∧ o.toV = j
      · rw [if_pos (by simp [h1.1, h1.2])]
        rw [← h1.1, ← h1.2] at *
        rw [getD_set_self _ _ (by rw [ihlen]; nlinarith)]
      · rw [if_neg (by simpa using h1)]
        have hne1 : i * v + j ≠ o.fr * v + o.toV := by
          intro hcon
          obtain ⟨ha, hb⟩ := idx_inj hj hofr.2 hcon
          exact h1 ⟨ha.symm, hb.symm⟩
        rw [getD_set_ne _ _ hne1]
        exact ihget i j hi hj

theorem floydRow_aux {n k i : Nat} (hk : k < n) (hi : i < n) (m : List Int)
    (hlen : m.length = n * n) (hkk : m.getD (k * n + k) 0 = 0) :
    ∀ (t : Nat), t ≤ n →
      ((List.range t).foldl (fun m j =>
        m.set (i * n + j) (min (m.getD (i * n + j) 0)
          (m.getD (i * n + k) 0 + m.getD (k * n + j) 0))) m).length = n * n ∧
      ∀ a b, a < n → b < n →
        ((List.range t).foldl (fun m j =>
          m.set (i * n + j) (min (m.getD (i * n + j) 0)
            (m.getD (i * n + k) 0 + m.getD (k * n + j) 0))) m).getD
          (a * n + b) 0 =
          if a = i ∧ b < t then
            min (m.getD (i * n + b) 0)
              (m.getD (i * n + k) 0 + m.getD (k * n + b) 0)
          else m.getD (a * n + b) 0 := by
  intro t
  induction t with
  | zero =>
    intro _
    refine ⟨hlen, ?_⟩
    intro a b ha hb
    rw [if_neg (by omega), List.range_zero, List.foldl_nil]
  | succ t ih =>
    intro ht
    obtain ⟨ihlen, ihget⟩ := ih (by omega)
    rw [List.range_succ, List.foldl_append, List.foldl_cons, List.foldl_nil]
    set mt := (List.range t).foldl (fun m j =>
      m.set (i * n + j) (min (m.getD (i * n + j) 0)
        (m.getD (i * n + k) 0 + m.getD (k * n + j) 0))) m with hmt
    have hread1 : mt.getD (i * n + t) 0 = m.getD (i * n + t) 0 := by
      rw [ihget i t hi (by omega), if_neg (by omega)]
    have hread2 : mt.getD (i * n + k) 0 = m.getD (i * n + k) 0 := by
      rw [ihget i k hi hk]
      by_cases hkt : k < t
      · rw [if_pos ⟨rfl, hkt⟩, hkk, add_zero, min_self]
      · rw [if_neg (by omega)]
    have hread3 : mt.getD (k * n + t) 0 = m.getD (k * n + t) 0 := by
      rw [ihget k t hk (by omega)]
      by_cases hki : k = i
      · rw [if_neg (by omega)]
      · rw [if_neg (by intro h; exact hki h.1)]
    refine ⟨by rw [List.length_set]; exact ihlen, ?_⟩
    intro a b ha hb
    by_cases hab : a = i ∧ b = t
    · obtain ⟨rfl, rfl⟩ := hab
      rw [getD_set_self _ _ (by rw [ihlen]; nlinarith)]
      rw [hread1, hread2, hread3, if_pos ⟨rfl, by omega⟩]
    · have hne : a * n + b ≠ i * n + t := by
        intro hcon
        obtain ⟨h1, h2⟩ := idx_inj hb (by omega) hcon
        exact hab ⟨h1, h2⟩
      rw [getD_set_ne _ _ hne, ihget a b ha hb]
      by_cases he : a = i ∧ b < t
      · rw [if_pos he, if_pos ⟨he.1, by omega⟩]
      · rw [if_neg he, if_neg (by
          intro ⟨h1, h2⟩
          exact he ⟨h1, by
            rcases Nat.lt_or_ge b t with h | h
            · exact h
            · exact absurd ⟨h1, by omega⟩ hab⟩)]

theorem floydRow_spec {n k i : Nat} (hk : k < n) (hi : i < n)
    {m : List Int} (hlen : m.length = n * n)
    (hkk : m.getD (k * n + k) 0 = 0) :
    (floydRow n k i m).length = n * n ∧
    ∀ a b, a < n → b < n → (floydRow n k i m).getD (a * n + b) 0 =
      if a = i then
        min (m.getD (i * n + b) 0)
          (m.getD (i * n + k) 0 + m.getD (k * n + b) 0)
      else m.getD (a * n + b) 0 := by
  obtain ⟨h1, h2⟩ := floydRow_aux hk hi m hlen hkk n le_rfl
  refine ⟨h1, ?_⟩
  intro a b ha hb
  rw [show floydRow n k i m = (List.range n).foldl (fun m j =>
    m.set (i * n + j) (min (m.getD (i * n + j) 0)
      (m.getD (i * n + k) 0 + m.getD (k * n + j) 0))) m from rfl]
  rw [h2 a b ha hb]
  by_cases hai : a = i
  · rw [if_pos ⟨hai, hb⟩, if_pos hai]
  · rw [if_neg (fun h => hai h.1), if_neg hai]

theorem floydPass_aux {n k : Nat} (hk : k < n) (m : List Int)
    (hlen : m.length = n * n) (hkk : m.getD (k * n + k) 0 = 0) :
    ∀ (t : Nat), t ≤ n →
      ((List.range t).foldl (fun m i => floydRow n k i m) m).length = n * n ∧
      ∀ a b, a < n → b < n →
        ((List.range t).foldl (fun m i => floydRow n k i m) m).getD
          (a * n + b) 0 =
          if a < t then
            min (m.getD (a * n + b) 0)
              (m.getD (a * n + k) 0 + m.getD (k * n + b) 0)
          else m.getD (a * n + b) 0 := by
  intro t
  induction t with
  | zero =>
    intro _
    refine ⟨hlen, ?_⟩
    intro a b ha hb
    rw [if_neg (by omega), List.range_zero, List.foldl_nil]
  | succ t ih =>
    intro ht
    obtain ⟨ihlen, ihget⟩ := ih (by omega)
    rw [List.range_succ, List.foldl_append, List.foldl_cons, List.foldl_nil]
    set mt := (List.range t).foldl (fun m i => floydRow n k i m) m with hmt
    have hmtkk : mt.getD (k * n + k) 0 = 0 := by
      rw [ihget k k hk hk]
      by_cases hkt : k < t
      · rw [if_pos hkt, hkk]
        simp
      · rw [if_neg hkt, hkk]
    obtain ⟨hrlen, hrget⟩ := floydRow_spec hk (by omega : t < n) ihlen hmtkk
    refine ⟨hrlen, ?_⟩
    intro a b ha hb
    rw [hrget a b ha hb]
    by_cases hat : a = t
    · rw [if_pos hat]
      rw [if_pos (show a < t + 1 by omega)]
      rw [hat]
      have h1 : mt.getD (t * n + b) 0 = m.getD (t * n + b) 0 := by
        rw [ihget t b (by omega) hb, if_neg (by omega)]
      have h2 : mt.getD (t * n + k) 0 = m.getD (t * n + k) 0 := by
        rw [ihget t k (by omega) hk, if_neg (by omega)]
      have h3 : mt.getD (k * n + b) 0 = m.getD (k * n + b) 0 := by
        rw [ihget k b hk hb]
        by_cases hkt : k < t
        · rw [if_pos hkt, hkk, zero_add, min_self]
        · rw [if_neg hkt]
      rw [h1, h2, h3]
    · rw [if_neg hat, ihget a b ha hb]
      by_cases halt : a < t
      · rw [if_pos halt, if_pos (by omega)]
      · rw [if_neg halt, if_neg (by omega)]

theorem floydPass_spec {n k : Nat} (hk : k < n) {m : List Int}
    (hlen : m.length = n * n) (hkk : m.getD (k * n + k) 0 = 0) :
    (floydPass n k m).length = n * n ∧
    ∀ a b, a < n → b < n → (floydPass n k m).getD (a * n + b) 0 =
      min (m.getD (a * n + b) 0)
        (m.getD (a * n + k) 0 + m.getD (k * n + b) 0) := by
  obtain ⟨h1, h2⟩ := floydPass_aux hk m hlen hkk n le_rfl
  refine ⟨h1, ?_⟩
  intro a b ha hb
  rw [show floydPass n k m =
    (List.range n).foldl (fun m i => floydRow n k i m) m from rfl]
  rw [h2 a b ha hb, if_pos ha]

/-- The intermediate vertices of a walk: all visited vertices except the two
endpoints (the targets of all edges but the last). -/
def interm (l : List CEdge) : List Nat :=
  (l.map CEdge.toV).dropLast

/-- A walk whose intermediate vertices are all `< K`. -/
def RWalk (g : List CEdge) (K i j : Nat) (l : List CEdge) : Prop :=
  Walk g i j l ∧ ∀ x ∈ interm l, x < K

theorem rwalk_mono {g : List CEdge} {K K' i j : Nat} {l : List CEdge}
    (hKK : K ≤ K') (h : RWalk g K i j l) : RWalk g K' i j l :=
  ⟨h.1, fun x hx => lt_of_lt_of_le (h.2 x hx) hKK⟩

theorem rwalk_zero {g : List CEdge} {i j : Nat} {l : List CEdge}
    (h : RWalk g 0 i j l) : l = [] ∨ ∃ e, l = [e] := by
  match l with
  | [] => exact Or.inl rfl
  | [e] => exact Or.inr ⟨e, rfl⟩
  | e₁ :: e₂ :: t =>
    exfalso
    have : e₁.toV ∈ interm (e₁ :: e₂ :: t) := by
      unfold interm
      rw [List.map_cons, List.map_cons,
        List.dropLast_cons_of_ne_nil (by simp)]
      simp
    exact absurd (h.2 _ this) (by omega)

theorem interm_cons {e : CEdge} {t : List CEdge} (ht : t ≠ []) :
    interm (e :: t) = e.toV :: interm t := by
  unfold interm
  rw [List.map_cons, List.dropLast_cons_of_ne_nil (by simpa using ht)]

/-- Splitting a `(K+1)`-restricted walk at its first passage through `K`. -/
theorem rwalk_split {g : List CEdge} {K i j : Nat} :
    ∀ {l : List CEdge}, RWalk g (K + 1) i j l → K ∈ interm l →
      ∃ la lb, l = la ++ lb ∧ RWalk g K i K la ∧ RWalk g (K + 1) K j lb ∧
        lb.length < l.length := by
  intro l
  induction l generalizing i with
  | nil => intro _ hK; simp [interm] at hK
  | cons e t ih =>
    intro h hK
    by_cases htne : t = []
    · rw [htne] at hK
      simp [interm] at hK
    · rw [interm_cons htne] at hK
      obtain ⟨hw, hint⟩ := h
      cases hw with
      | cons _ _ _ he hw' =>
        by_cases heK : e.toV = K
        · refine ⟨[e], t, by simp, ⟨?_, by simp [interm]⟩,
            ⟨heK ▸ hw', ?_⟩, by simp⟩
          · rw [← heK]
            exact Walk.cons e e.toV [] he (Walk.nil e.toV)
          · intro x hx
            refine hint x ?_
            rw [interm_cons htne]
            simp [hx]
        · have hKt : K ∈ interm t := by
            rcases List.mem_cons.mp hK with h | h
            · exact absurd h.symm heK
            · exact h
          have hrt : RWalk g (K + 1) e.toV j t := ⟨hw', by
            intro x hx
            refine hint x ?_
            rw [interm_cons htne]
            simp [hx]⟩
          obtain ⟨la, lb, hsplit, hla, hlb, hlen⟩ := ih hrt hKt
          have heKlt : e.toV < K := by
            have : e.toV < K + 1 := hint e.toV (by
              rw [interm_cons htne]; simp)
            omega
          refine ⟨e :: la, lb, by simp [hsplit], ⟨?_, ?_⟩, hlb,
            by simp; omega⟩
          · exact Walk.cons e K la he hla.1
          · intro x hx
            by_cases hlane : la = []
            · subst hlane
              simp [interm] at hx
            · rw [interm_cons hlane] at hx
              rcases List.mem_cons.mp hx with rfl | hx'
              · exact heKlt
              · exact hla.2 x hx'

theorem dropLast_append_ne {α : Type} {l₁ l₂ : List α} (h : l₂ ≠ []) :
    (l₁ ++ l₂).dropLast = l₁ ++ l₂.dropLast := by
  induction l₁ with
  | nil => simp
  | cons a t ih =>
    rw [List.cons_append,
      List.dropLast_cons_of_ne_nil (by simp [h]), ih, List.cons_append]

theorem walk_map_getLast {g : List CEdge} {u v : Nat} {l : List CEdge}
    (h : Walk g u v l) (hl : l ≠ []) :
    (l.map CEdge.toV).getLast (by simpa using hl) = v := by
  have h2 := Walk.last_eq h
  unfold walkVerts at h2
  rwa [List.getLast_cons (by simpa using hl)] at h2

theorem rwalk_append {g : List CEdge} {K i j : Nat} {la lb : List CEdge}
    (h1 : RWalk g K i K la) (h2 : RWalk g K K j lb) :
    RWalk g (K + 1) i j (la ++ lb) := by
  refine ⟨Walk.append h1.1 h2.1, ?_⟩
  intro x hx
  unfold interm at hx
  rw [List.map_append] at hx
  by_cases hlb : lb = []
  · subst hlb
    simp only [List.map_nil, List.append_nil] at hx
    exact lt_of_lt_of_le (h1.2 x hx) (by omega)
  · rw [dropLast_append_ne (by simpa using hlb)] at hx
    rcases List.mem_append.mp hx with hx' | hx'
    · by_cases hla : la = []
      · subst hla
        simp at hx'
      · have hmap : la.map CEdge.toV ≠ [] := by simpa using hla
        rcases List.mem_append.mp
          ((List.dropLast_append_getLast hmap ▸ hx' : x ∈ _)) with h | h
        · exact lt_of_lt_of_le (h1.2 x h) (by omega)
        · rw [List.mem_singleton.mp h, walk_map_getLast h1.1 hla]
          omega
    · exact lt_of_lt_of_le (h2.2 x hx') (by omega)

/-- The Floyd–Warshall invariant after the passes `k = 0, …, K-1`: each cell
`(i, j)` is a lower bound on (and, when below the sentinel, attained by)
the `K`-restricted walks from `i` to `j`, stays within `[0, kInf]`, and the
diagonal is zero. -/
def FloydInv (g : List CEdge) (n K : Nat) (f : Nat → Nat → Int) : Prop :=
  ∀ i j, i < n → j < n →
    (∀ l, RWalk g K i j l → f i j ≤ weight l) ∧
    (f i j = kInf ∨ ∃ l, RWalk g K i j l ∧ weight l = f i j) ∧
    0 ≤ f i j ∧ f i j ≤ kInf ∧ (i = j → f i j = 0)

theorem rwalk_fromK_lb {g : List CEdge} {n K : Nat} {f : Nat → Nat → Int}
    (hc : ∀ e ∈ g, 0 ≤ e.cost) (hinv : FloydInv g n K f) (hK : K < n)
    {j : Nat} (hj : j < n) :
    ∀ (m : Nat) (l : List CEdge), l.length ≤ m → RWalk g (K + 1) K j l →
      f K j ≤ weight l := by
  intro m
  induction m with
  | zero =>
    intro l hl hr
    have : l = [] := List.length_eq_zero.mp (by omega)
    subst this
    exact (hinv K j hK hj).1 [] ⟨hr.1, by simp [interm]⟩
  | succ m ih =>
    intro l hl hr
    by_cases hKl : K ∈ interm l
    · obtain ⟨la, lb, rfl, hla, hlb, hlen⟩ := rwalk_split hr hKl
      have h0 : 0 ≤ weight la :=
        weight_nonneg la (fun e he => hc e (Walk.edges_mem hla.1 e he))
      have hlbw := ih lb (by
        rw [List.length_append] at hl
        rw [List.length_append] at hlen
        omega) hlb
      rw [weight_append]
      omega
    · refine (hinv K j hK hj).1 l ⟨hr.1, ?_⟩
      intro x hx
      have := hr.2 x hx
      rcases Nat.lt_or_ge x K with h | h
      · exact h
      · exact absurd (by omega : x = K) (fun hxx => hKl (hxx ▸ hx))

theorem floydInv_step {g : List CEdge} {n K : Nat}
    (hval : ∀ e ∈ g, e.fr < n ∧ e.toV < n) (hc : ∀ e ∈ g, 0 ≤ e.cost)
    {f : Nat → Nat → Int} (hK : K < n) (hinv : FloydInv g n K f) :
    FloydInv g n (K + 1) (fun i j => min (f i j) (f i K + f K j)) := by
  intro i j hi hj
  dsimp only
  obtain ⟨ha, hb, hnn, hub, hdg⟩ := hinv i j hi hj
  obtain ⟨haK, hbK, hnnK, hubK, -⟩ := hinv i K hi hK
  obtain ⟨haJ, hbJ, hnnJ, hubJ, -⟩ := hinv K j hK hj
  refine ⟨?_, ?_, ?_, ?_, ?_⟩
  · intro l hr
    by_cases hKl : K ∈ interm l
    · obtain ⟨la, lb, rfl, hla, hlb, hlen⟩ := rwalk_split hr hKl
      have h1 : f i K ≤ weight la := haK la hla
      have h2 : f K j ≤ weight lb :=
        rwalk_fromK_lb hc hinv hK hj lb.length lb le_rfl hlb
      rw [weight_append]
      have : min (f i j) (f i K + f K j) ≤ f i K + f K j := min_le_right _ _
      omega
    · have hr' : RWalk g K i j l := ⟨hr.1, by
        intro x hx
        have := hr.2 x hx
        rcases Nat.lt_or_ge x K with h | h
        · exact h
        · exact absurd (by omega : x = K) (fun hxx => hKl (hxx ▸ hx))⟩
      have := ha l hr'
      have : min (f i j) (f i K + f K j) ≤ f i j := min_le_left _ _
      omega
  · rcases le_total (f i j) (f i K + f K j) with hle | hle
    · rw [min_eq_left hle]
      rcases hb with hk | ⟨l, hl, hwl⟩
      · exact Or.inl hk
      · exact Or.inr ⟨l, rwalk_mono (by omega) hl, hwl⟩
    · rw [min_eq_right hle]
      by_cases hik : f i K = kInf
      · left
        rw [hik] at hle ⊢
        omega
      · by_cases hkj : f K j = kInf
        · left
          rw [hkj] at hle ⊢
          omega
        · rcases hbK with hk | ⟨la, hla, hwa⟩
          · exact absurd hk hik
          rcases hbJ with hk | ⟨lb, hlb, hwb⟩
          · exact absurd hk hkj
          right
          refine ⟨la ++ lb, rwalk_append hla hlb, ?_⟩
          rw [weight_append, hwa, hwb]
  · exact le_min hnn (by omega)
  · exact le_trans (min_le_left _ _) hub
  · intro hij
    rw [hdg hij]
    refine min_eq_left ?_
    omega

/-- `FloydInv` only inspects values at indices below `n`. -/
theorem floydInv_congr {g : List CEdge} {n K : Nat} {f f' : Nat → Nat → Int}
    (hf : ∀ i j, i < n → j < n → f i j = f' i j)
    (h : FloydInv g n K f) : FloydInv g n K f' := by
  intro i j hi hj
  obtain ⟨ha, hb, hnn, hub, hdg⟩ := h i j hi hj
  rw [← hf i j hi hj]
  exact ⟨ha, hb, hnn, hub, hdg⟩

theorem lastWrite_not_mem {g : List CEdge} {i j : Nat} {d : Int}
    (h : ∀ e ∈ g, ¬(e.fr = i ∧ e.toV = j)) : lastWrite g i j d = d := by
  unfold lastWrite
  rw [List.find?_eq_none.mpr (by
    intro e he
    have := h e (List.mem_reverse.mp he)
    simp only [Bool.and_eq_true, beq_iff_eq]
    intro hcon
    exact this hcon)]

theorem lastWrite_mem_nodup {g : List CEdge} {e : CEdge} {d : Int}
    (hnd : (g.map (fun e => (e.fr, e.toV))).Nodup) (he : e ∈ g) :
    lastWrite g e.fr e.toV d = e.cost := by
  unfold lastWrite
  cases hfind : g.reverse.find? (fun x => x.fr == e.fr && x.toV == e.toV) with
  | none =>
    exfalso
    have := List.find?_eq_none.mp hfind e (List.mem_reverse.mpr he)
    simp at this
  | some x =>
    have hx := List.find?_some hfind
    have hxmem := List.mem_reverse.mp (List.mem_of_find?_eq_some hfind)
    simp only [Bool.and_eq_true, beq_iff_eq] at hx
    have : x = e := List.inj_on_of_nodup_map hnd hxmem he (by
      rw [Prod.mk.injEq]
      exact ⟨hx.1, hx.2⟩)
    rw [this]

theorem floydInv_base {g : List CEdge} {n : Nat}
    (hval : ∀ e ∈ g, e.fr < n ∧ e.toV < n) (hc : ∀ e ∈ g, 0 ≤ e.cost)
    (hsum : sumCost g < kInf)
    (hnd : (g.map (fun e => (e.fr, e.toV))).Nodup)
    (hns : ∀ e ∈ g, e.fr ≠ e.toV) :
    FloydInv g n 0 (fun i j =>
      lastWrite g i j (if i = j then 0 else kInf)) := by
  have hcost_ub : ∀ e ∈ g, e.cost ≤ sumCost g := by
    intro e he
    unfold sumCost
    exact List.single_le_sum (by
      intro x hx
      obtain ⟨e', he', rfl⟩ := List.mem_map.mp hx
      exact hc e' he') _ (List.mem_map_of_mem _ he)
  intro i j hi hj
  dsimp only
  by_cases hed : ∃ e ∈ g, e.fr = i ∧ e.toV = j
  · obtain ⟨e, he, hefr, hetoV⟩ := hed
    have hlw : lastWrite g i j (if i = j then 0 else kInf) = e.cost := by
      rw [← hefr, ← hetoV]
      exact lastWrite_mem_nodup hnd he
    rw [hlw]
    have hij : i ≠ j := by
      rw [← hefr, ← hetoV]
      exact hns e he
    refine ⟨?_, ?_, hc e he, by
        have := hcost_ub e he
        unfold kInf at *
        omega, fun h => absurd h hij⟩
    · intro l hr
      rcases rwalk_zero hr with rfl | ⟨e', rfl⟩
      · exact absurd (walk_nil_eq hr.1 rfl) hij
      · obtain ⟨hu, hv⟩ := walk_singleton hr.1 rfl
        have he'g : e' ∈ g := Walk.edges_mem hr.1 e' (by simp)
        have : e' = e := List.inj_on_of_nodup_map hnd he'g he (by
          rw [Prod.mk.injEq]
          exact ⟨by omega, by omega⟩)
        rw [weight_cons, weight_nil, this]
        omega
    · refine Or.inr ⟨[e], ⟨?_, by simp [interm]⟩, by
        rw [weight_cons, weight_nil]; ring⟩
      rw [← hefr, ← hetoV]
      exact Walk.cons e e.toV [] he (Walk.nil e.toV)
  · push_neg at hed
    have hlw : lastWrite g i j (if i = j then 0 else kInf) =
        (if i = j then 0 else kInf) := lastWrite_not_mem (by
      intro e he hcon
      exact hed e he hcon.1 hcon.2)
    rw [hlw]
    by_cases hij : i = j
    · rw [if_pos hij]
      subst hij
      refine ⟨?_, Or.inr ⟨[], ⟨Walk.nil i, by simp [interm]⟩, rfl⟩,
        le_refl _, by unfold kInf; omega, fun _ => rfl⟩
      intro l hr
      rcases rwalk_zero hr with rfl | ⟨e', rfl⟩
      · simp [weight]
      · have he'g : e' ∈ g := Walk.edges_mem hr.1 e' (by simp)
        rw [weight_cons, weight_nil]
        have := hc e' he'g
        omega
    · rw [if_neg hij]
      refine ⟨?_, Or.inl rfl, by unfold kInf; omega, le_refl _,
        fun h => absurd h hij⟩
      intro l hr
      rcases rwalk_zero hr with rfl | ⟨e', rfl⟩
      · exact absurd (walk_nil_eq hr.1 rfl) hij
      · obtain ⟨hu, hv⟩ := walk_singleton hr.1 rfl
        have he'g : e' ∈ g := Walk.edges_mem hr.1 e' (by simp)
        exact (hed e' he'g hu.symm hv.symm).elim

theorem wfFloyd_aux {g : List CEdge} {n : Nat}
    (hval : ∀ e ∈ g, e.fr < n ∧ e.toV < n) (hc : ∀ e ∈ g, 0 ≤ e.cost)
    {mat : List Int} (hlen : mat.length = n * n)
    (hbase : FloydInv g n 0 (fun i j => mat.getD (i * n + j) 0)) :
    ∀ (K : Nat), K ≤ n →
      ((List.range K).foldl (fun m k => floydPass n k m) mat).length = n * n ∧
      FloydInv g n K (fun i j =>
        ((List.range K).foldl (fun m k => floydPass n k m) mat).getD
          (i * n + j) 0) := by
  intro K
  induction K with
  | zero =>
    intro _
    rw [List.range_zero, List.foldl_nil]
    exact ⟨hlen, hbase⟩
  | succ K ih =>
    intro hK
    obtain ⟨ihlen, ihinv⟩ := ih (by omega)
    rw [List.range_succ, List.foldl_append, List.foldl_cons, List.foldl_nil]
    set mK := (List.range K).foldl (fun m k => floydPass n k m) mat with hmK
    have hKn : K < n := by omega
    have hkk : mK.getD (K * n + K) 0 = 0 :=
      (ihinv K K hKn hKn).2.2.2.2 rfl
    obtain ⟨hplen, hpget⟩ := floydPass_spec hKn ihlen hkk
    refine ⟨hplen, ?_⟩
    have hstep := floydInv_step hval hc hKn ihinv
    refine floydInv_congr ?_ hstep
    intro i j hi hj
    rw [hpget i j hi hj]

/-- Correctness of the completed Floyd matrix: for all vertex indices below
`n`, the cell holds the shortest-path distance, or the sentinel when
unreachable. -/
theorem floyd_correct {g : List CEdge} {n : Nat}
    (hval : ∀ e ∈ g, e.fr < n ∧ e.toV < n) (hc : ∀ e ∈ g, 0 ≤ e.cost)
    (hsum : sumCost g < kInf) {f : Nat → Nat → Int}
    (hinv : FloydInv g n n f) :
    ∀ u v, u < n → v < n →
      (Reachable g u v → SpecDist g u v (f u v)) ∧
      (¬ Reachable g u v → f u v = kInf) := by
  have hrw : ∀ u v (l : List CEdge), u < n → Walk g u v l →
      RWalk g n u v l := by
    intro u v l hu hw
    refine ⟨hw, ?_⟩
    intro x hx
    have hx' : x ∈ l.map CEdge.toV := List.dropLast_subset _ hx
    obtain ⟨e, he, rfl⟩ := List.mem_map.mp hx'
    exact (hval e (Walk.edges_mem hw e he)).2
  intro u v hu hv
  have hcyc := @nonneg_cycles g u hc
  obtain ⟨ha, hb, hnn, hub, -⟩ := hinv u v hu hv
  constructor
  · rintro ⟨l, hl⟩
    obtain ⟨l₀, hw₀, hnd₀, -⟩ := walk_to_path hcyc l.length le_rfl hl
    have hlt : f u v < kInf :=
      lt_of_le_of_lt (ha l₀ (hrw u v l₀ hu hw₀))
        (path_weight_lt hc hsum hw₀ hnd₀).1
    rcases hb with hk | ⟨lw, hlw, hwt⟩
    · omega
    · obtain ⟨l₁, hw₁, hnd₁, hwt₁⟩ :=
        walk_to_path hcyc lw.length le_rfl hlw.1
      have hge : f u v ≤ weight l₁ := ha l₁ (hrw u v l₁ hu hw₁)
      exact ⟨⟨l₁, hw₁, hnd₁, by omega⟩,
        fun l' hl' => ha l' (hrw u v l' hu hl')⟩
  · intro hnr
    rcases hb with hk | ⟨lw, hlw, -⟩
    · exact hk
    · exact absurd ⟨lw, hlw.1⟩ hnr

theorem range_map_getD (n j : Nat) (f : Nat → Int) (hj : j < n) :
    ((List.range n).map f).getD j 0 = f j := by
  rw [List.getD_eq_getElem _ _ (by simpa using hj)]
  rw [List.getElem_map, List.getElem_range]

/-- End-to-end correctness of `WarshalFloyd` built at capacity `v` from
in-range directed/undirected insertions with non-negative costs summing
below the sentinel, at most one insertion per ordered pair and no
self-loops. -/
theorem wf_run_correct (v : Nat) (ops : List Op) (fr : Nat)
    (hids : ∀ e ∈ opEdges ops, e.fr < v ∧ e.toV < v) (hfr : fr < v)
    (hc : ∀ e ∈ opEdges ops, 0 ≤ e.cost)
    (hsum : sumCost (opEdges ops) < kInf)
    (hnd : ((opEdges ops).map (fun e => (e.fr, e.toV))).Nodup)
    (hns : ∀ e ∈ opEdges ops, e.fr ≠ e.toV) :
    ((buildWF v ops).shortestPath_ fr).1.length = v ∧
    ∀ j, j < v →
      (Reachable (opEdges ops) fr j → SpecDist (opEdges ops) fr j
        (((buildWF v ops).shortestPath_ fr).1.getD j 0)) ∧
      (¬ Reachable (opEdges ops) fr j →
        ((buildWF v ops).shortestPath_ fr).1.getD j 0 = kInf) := by
  obtain ⟨hmlen, hmget⟩ := buildWF_mat v ops hids
  have hnv : (buildWF v ops).nVertex = v := buildWF_nVertex v ops
  have hbase : FloydInv (opEdges ops) v 0
      (fun i j => (buildWF v ops).m_graph.getD (i * v + j) 0) := by
    refine floydInv_congr ?_ (floydInv_base hids hc hsum hnd hns)
    intro i j hi hj
    rw [hmget i j hi hj]
  obtain ⟨hflen, hfinv⟩ := wfFloyd_aux hids hc hmlen hbase v le_rfl
  have hcor := floyd_correct hids hc hsum hfinv
  have hrow : ((buildWF v ops).shortestPath_ fr).1 =
      (List.range v).map (fun j =>
        (wfFloyd v (buildWF v ops).m_graph).getD (fr * v + j) 0) := by
    unfold WarshalFloyd.shortestPath_
    rw [hnv]
  constructor
  · rw [hrow]
    simp
  · intro j hj
    have hget : ((buildWF v ops).shortestPath_ fr).1.getD j 0 =
        (wfFloyd v (buildWF v ops).m_graph).getD (fr * v + j) 0 := by
      rw [hrow, range_map_getD v j _ hj]
    rw [hget]
    have := hcor fr j hfr hj
    rw [show wfFloyd v (buildWF v ops).m_graph =
      (List.range v).foldl (fun m k => floydPass v k m)
        (buildWF v ops).m_graph from rfl]
    exact this

/-- The distinct-vertex set accumulated by any of the three solvers over a
sequence of build operations. -/
def opsVerts (ops : List Op) : List Nat :=
  ops.foldl (fun s o => vinsert (vinsert s o.fr) o.toV) []

theorem buildBF_vertex (ops : List Op) :
    (buildBF ops).m_vertex = opsVerts ops := by
  unfold buildBF opsVerts
  have : ∀ (t : List Op) (st : BellmanFord),
      (t.foldl (fun st o =>
        if o.undirected then st.addEdge_ o.fr o.toV o.cost
        else st.addDirectedEdge_ o.fr o.toV o.cost) st).m_vertex =
      t.foldl (fun s o => vinsert (vinsert s o.fr) o.toV) st.m_vertex := by
    intro t
    induction t with
    | nil => intro st; rfl
    | cons o t ih =>
      intro st
      rw [List.foldl_cons, List.foldl_cons, ih]
      by_cases hu : o.undirected <;>
        simp [hu, BellmanFord.addEdge_, BellmanFord.addDirectedEdge_]
  exact this ops _

theorem buildDij_vertex (ops : List Op) :
    (buildDij ops).m_vertex = opsVerts ops := by
  unfold buildDij opsVerts
  have : ∀ (t : List Op) (st : Dijkstra),
      (t.foldl (fun st o =>
        if o.undirected then st.addEdge_ o.fr o.toV o.cost
        else st.addDirectedEdge_ o.fr o.toV o.cost) st).m_vertex =
      t.foldl (fun s o => vinsert (vinsert s o.fr) o.toV) st.m_vertex := by
    intro t
    induction t with
    | nil => intro st; rfl
    | cons o t ih =>
      intro st
      rw [List.foldl_cons, List.foldl_cons, ih]
      by_cases hu : o.undirected <;>
        simp [hu, Dijkstra.addEdge_, Dijkstra.addDirectedEdge_]
  exact this ops _

theorem adjAdd_length (adj : List (List DEdge)) (fr toV : Nat) (cost : Int) :
    (adjAdd adj fr toV cost).length = max adj.length (max fr toV + 1) := by
  unfold adjAdd
  split
  · next h => simp; omega
  · next h => simp; omega

/-- `Dijkstra::addEdge_` in terms of `adjAdd`: after the first directed
insertion both indices are below the adjacency size, so the reverse
insertion is a pure slot append. -/
theorem dij_addEdge_graph (st : Dijkstra) (fr toV : Nat) (cost : Int) :
    (st.addEdge_ fr toV cost).m_graph =
      adjAdd (st.addDirectedEdge_ fr toV cost).m_graph toV fr cost := by
  unfold Dijkstra.addEdge_
  have hlen : max toV fr < (st.addDirectedEdge_ fr toV cost).m_graph.length := by
    show max toV fr < (adjAdd st.m_graph fr toV cost).length
    rw [adjAdd_length]
    omega
  rw [show adjAdd (st.addDirectedEdge_ fr toV cost).m_graph toV fr cost =
    (if (st.addDirectedEdge_ fr toV cost).m_graph.length ≤ max toV fr then
        (st.addDirectedEdge_ fr toV cost).m_graph ++
          List.replicate (max toV fr + 1 -
            (st.addDirectedEdge_ fr toV cost).m_graph.length) []
      else (st.addDirectedEdge_ fr toV cost).m_graph).set toV
      ((if (st.addDirectedEdge_ fr toV cost).m_graph.length ≤ max toV fr then
        (st.addDirectedEdge_ fr toV cost).m_graph ++
          List.replicate (max toV fr + 1 -
            (st.addDirectedEdge_ fr toV cost).m_graph.length) []
      else (st.addDirectedEdge_ fr toV cost).m_graph).getD toV [] ++
        [⟨fr, cost⟩]) from rfl]
  rw [if_neg (by omega)]

theorem mem_buildDij (ops : List Op) (e : CEdge) :
    e ∈ dijEdges (buildDij ops).m_graph ↔ e ∈ opEdges ops := by
  induction ops using List.reverseRecOn with
  | nil =>
    simp [buildDij, Dijkstra.init, dijEdges, opEdges]
  | append_singleton es o ih =>
    have hbapp : buildDij (es ++ [o]) =
        (if o.undirected then (buildDij es).addEdge_ o.fr o.toV o.cost
        else (buildDij es).addDirectedEdge_ o.fr o.toV o.cost) := by
      unfold buildDij
      rw [List.foldl_append, List.foldl_cons, List.foldl_nil]
    rw [hbapp, opEdges_append]
    by_cases hu : o.undirected
    · rw [if_pos hu, dij_addEdge_graph]
      rw [mem_dijEdges_adjAdd]
      rw [show ((buildDij es).addDirectedEdge_ o.fr o.toV o.cost).m_graph =
        adjAdd (buildDij es).m_graph o.fr o.toV o.cost from rfl]
      rw [mem_dijEdges_adjAdd, ih]
      unfold opEdges
      simp [hu]
      constructor
      · rintro ((h | rfl) | rfl)
        · exact Or.inl h
        · exact Or.inr (Or.inl rfl)
        · exact Or.inr (Or.inr rfl)
      · rintro (h | rfl | rfl)
        · exact Or.inl (Or.inl h)
        · exact Or.inl (Or.inr rfl)
        · exact Or.inr rfl
    · rw [if_neg hu]
      rw [show ((buildDij es).addDirectedEdge_ o.fr o.toV o.cost).m_graph =
        adjAdd (buildDij es).m_graph o.fr o.toV o.cost from rfl]
      rw [mem_dijEdges_adjAdd, ih]
      unfold opEdges
      simp [hu]

theorem walk_congr {g g' : List CEdge} (h : ∀ e, e ∈ g → e ∈ g')
    {u v : Nat} {l : List CEdge} (hw : Walk g u v l) : Walk g' u v l := by
  induction hw with
  | nil => exact Walk.nil _
  | cons e v l he hw ih => exact Walk.cons e v l (h e he) ih

/-- `t` concatenated copies of `l`. -/
def repList (t : Nat) (l : List CEdge) : List CEdge :=
  match t with
  | 0 => []
  | t + 1 => repList t l ++ l

theorem repList_walk {g : List CEdge} {x : Nat} {l : List CEdge}
    (h : Walk g x x l) : ∀ t, Walk g x x (repList t l) := by
  intro t
  induction t with
  | zero => exact Walk.nil x
  | succ t ih => exact Walk.append ih h

theorem repList_weight (l : List CEdge) :
    ∀ t, weight (repList t l) = t * weight l := by
  intro t
  induction t with
  | zero => simp [repList, weight]
  | succ t ih =>
    rw [show repList (t + 1) l = repList t l ++ l from rfl, weight_append, ih]
    push_cast
    ring

theorem weight_take_append (A B : List CEdge) (k : Nat) :
    weight ((A ++ B).take k) =
      weight (A.take k) + weight (B.take (k - A.length)) := by
  rw [List.take_append_eq_append_take, weight_append]

theorem weight_take_le (l : List CEdge) (k : Nat) (h : k ≥ l.length) :
    weight (l.take k) = weight l := by
  rw [List.take_of_length_le (by omega)]

/-- Prefix boundedness is preserved under pumping a negative cycle. -/
theorem pump_prefixes {l1 l2 : List CEdge} (hneg : weight l2 < 0)
    (hpre : ∀ k, weight ((l1 ++ l2).take k) < kInf) :
    ∀ t k, weight ((l1 ++ repList t l2).take k) < kInf := by
  have hbase : ∀ k, weight (l1.take k) + weight (l2.take (k - l1.length)) <
      kInf := by
    intro k
    have := hpre k
    rwa [weight_take_append] at this
  intro t
  induction t with
  | zero =>
    intro k
    rw [show repList 0 l2 = [] from rfl, weight_take_append]
    rw [show ([] : List CEdge).take (k - l1.length) = [] from List.take_nil,
      weight_nil]
    by_cases hk : k ≤ l1.length
    · have hb := hbase k
      rw [show k - l1.length = 0 by omega, List.take_zero, weight_nil] at hb
      omega
    · rw [weight_take_le l1 k (by omega)]
      have hb := hbase l1.length
      rw [weight_take_le l1 l1.length le_rfl, Nat.sub_self, List.take_zero,
        weight_nil] at hb
      omega
  | succ t ih =>
    intro k
    rw [show l1 ++ repList (t + 1) l2 = (l1 ++ repList t l2) ++ l2 by
      rw [show repList (t + 1) l2 = repList t l2 ++ l2 from rfl]
      rw [List.append_assoc]]
    rw [weight_take_append]
    by_cases hk : k ≤ (l1 ++ repList t l2).length
    · have h2 : weight (l2.take (k - (l1 ++ repList t l2).length)) = 0 := by
        rw [show k - (l1 ++ repList t l2).length = 0 by omega]
        simp [weight]
      rw [h2]
      have := ih k
      omega
    · have h1 : weight ((l1 ++ repList t l2).take k) =
          weight (l1 ++ repList t l2) := weight_take_le _ _ (by omega)
      rw [h1, weight_append, repList_weight]
      set kk := k - (l1 ++ repList t l2).length with hkk
      have h3 : weight l1 + weight (l2.take kk) < kInf := by
        have := hbase (l1.length + kk)
        rw [weight_take_le l1 _ (by omega),
          show l1.length + kk - l1.length = kk by omega] at this
        exact this
      have h4 : (t : Int) * weight l2 ≤ 0 := by
        have : (0 : Int) ≤ t := by positivity
        nlinarith
      omega

/-- No relaxation fixpoint exists when a negative cycle is reachable through
walks all of whose prefixes weigh less than the sentinel. -/
theorem no_fixpoint {g : List CEdge} {s x : Nat} {l1 l2 : List CEdge}
    (hw1 : Walk g s x l1) (hw2 : Walk g x x l2) (hneg : weight l2 < 0)
    (hpre : ∀ k, weight ((l1 ++ l2).take k) < kInf)
    {d : List Int} (hd : d.getD s 0 ≤ 0) (hfix : ∀ e ∈ g, BFfix d e) :
    False := by
  have hbound : ∀ t : Nat, d.getD x 0 ≤ weight l1 + t * weight l2 := by
    intro t
    have hwalk : Walk g s x (l1 ++ repList t l2) :=
      Walk.append hw1 (repList_walk hw2 t)
    have := fix_upper hfix (l1 ++ repList t l2) s x hwalk 0 hd (by
      intro k
      have := pump_prefixes hneg hpre t k
      omega)
    rw [weight_append, repList_weight] at this
    omega
  set t := (weight l1 - d.getD x 0 + 1).toNat with ht
  have h1 : (weight l1 - d.getD x 0 + 1) ≤ (t : Int) := Int.self_le_toNat _
  have h2 := hbound t
  have h3 : (t : Int) * weight l2 ≤ -(t : Int) := by
    have : (0 : Int) ≤ t := by positivity
    nlinarith
  omega

/-- The BellmanFord loop never finishes, from any distance vector whose
source entry is non-positive, when a prefix-bounded negative cycle is
reachable. -/
theorem bfLoop_none {g : List CEdge} {s x : Nat} {l1 l2 : List CEdge}
    (hw1 : Walk g s x l1) (hw2 : Walk g x x l2) (hneg : weight l2 < 0)
    (hpre : ∀ k, weight ((l1 ++ l2).take k) < kInf) :
    ∀ (fuel : Nat) (d : List Int), d.getD s 0 ≤ 0 →
      bfLoop fuel g d = none := by
  intro fuel
  induction fuel with
  | zero => intro d _; rfl
  | succ fuel ih =>
    intro d hd
    rw [show bfLoop (fuel + 1) g d =
      (if (bfPass g d).1 then bfLoop fuel g (bfPass g d).2 else some d)
      from rfl]
    by_cases hp : (bfPass g d).1
    · rw [if_pos hp]
      exact ih _ (le_trans (bfFold_le g (false, d) s) hd)
    · exfalso
      have hfalse : bfPass g d = (false, (bfPass g d).2) :=
        Prod.ext (Bool.of_not_eq_true hp) rfl
      obtain ⟨-, hfix⟩ := bfFold_false hfalse
      exact no_fixpoint hw1 hw2 hneg hpre hd hfix

theorem walk_stuck {g : List CEdge} {u v : Nat} {l : List CEdge}
    (h : Walk g u v l) (hno : ∀ e ∈ g, e.fr ≠ u) : v = u ∧ l = [] := by
  induction h with
  | nil => exact ⟨rfl, rfl⟩
  | cons e v' l' he hw ih => exact absurd rfl (hno e he)

theorem c1a_walks : ∀ (l : List CEdge) (u v : Nat),
    Walk [⟨0, 1, kInf + 1⟩] u v l → u = 0 → v = 1 →
    l = [⟨0, 1, kInf + 1⟩] := by
  intro l u v h
  induction h with
  | nil => intro h0 h1; omega
  | cons e v' l' he hw ih =>
    intro h0 h1
    have he' : e = ⟨0, 1, kInf + 1⟩ := by simpa using he
    subst he'
    obtain ⟨hv, hl⟩ := walk_stuck hw (by
      intro e' he''
      have : e' = ⟨0, 1, kInf + 1⟩ := by simpa using he''
      subst this
      decide)
    rw [hl]

/-- C1: the claim fails as stated.  Four concrete violations: (a) a single
BellmanFord edge of cost `kInf + 1` leaves the reachable vertex `1` at the
sentinel although its shortest-path cost is `kInf + 1`; (b) a WarshalFloyd
edge of cost `-5` makes the unreachable vertex `2` report `kInf - 5`
instead of the sentinel; (c) a WarshalFloyd self-loop of cost `5` makes
vertex `0` report `5` although its shortest-path cost is `0`; (d) two
WarshalFloyd insertions for the pair `(0, 1)` make vertex `1` report the
later cost `5` although the shortest-path cost is `3`; (e) BellmanFord
never returns on a reachable negative cycle, so no distance sequence is
produced at all. -/
theorem C1_counterexample :
    ((buildBF [⟨false, 0, 1, kInf + 1⟩]).shortestPath_ 0 1 =
        some [0, kInf] ∧
      Reachable (opEdges [⟨false, 0, 1, kInf + 1⟩]) 0 1 ∧
      (∀ l, Walk (opEdges [⟨false, 0, 1, kInf + 1⟩]) 0 1 l →
        weight l = kInf + 1) ∧
      kInf ≠ kInf + 1) ∧
    ((((buildWF 3 [⟨false, 1, 2, -5⟩]).shortestPath_ 0).1.getD 2 0 =
        kInf - 5 ∧
      ¬ Reachable (opEdges [⟨false, 1, 2, -5⟩]) 0 2 ∧
      kInf - 5 ≠ kInf) ∧
    ((((buildWF 1 [⟨false, 0, 0, 5⟩]).shortestPath_ 0).1 = [5] ∧
      ¬ SpecDist (opEdges [⟨false, 0, 0, 5⟩]) 0 0 5) ∧
    ((((buildWF 2 [⟨false, 0, 1, 3⟩, ⟨false, 0, 1, 5⟩]).shortestPath_
        0).1.getD 1 0 = 5 ∧
      ¬ SpecDist (opEdges [⟨false, 0, 1, 3⟩, ⟨false, 0, 1, 5⟩]) 0 1 5) ∧
    ∀ fuel, (buildBF [⟨false, 0, 1, 1⟩, ⟨false, 1, 2, -5⟩,
      ⟨false, 2, 0, 1⟩]).shortestPath_ 0 fuel = none))) := by
  refine ⟨⟨by decide, ⟨[⟨0, 1, kInf + 1⟩],
      Walk.cons ⟨0, 1, kInf + 1⟩ 1 []
        (show (⟨0, 1, kInf + 1⟩ : CEdge) ∈
          opEdges [⟨false, 0, 1, kInf + 1⟩] by decide)
        (Walk.nil 1)⟩, ?_, by decide⟩,
    ⟨by decide, ?_, by decide⟩, ⟨by decide, ?_⟩, ⟨by decide, ?_⟩, ?_⟩
  · intro l hl
    have := c1a_walks l 0 1 (by
      simpa [opEdges] using hl) rfl rfl
    rw [this]
    decide
  · rintro ⟨l, hl⟩
    have := walk_stuck hl (by
      intro e he
      have : e = ⟨1, 2, -5⟩ := by simpa [opEdges] using he
      subst this
      decide)
    omega
  · intro hs
    have := hs.2 [] (Walk.nil 0)
    rw [weight_nil] at this
    exact absurd this (by decide)
  · intro hs
    have := hs.2 [⟨0, 1, 3⟩] (Walk.cons ⟨0, 1, 3⟩ 1 []
      (show (⟨0, 1, 3⟩ : CEdge) ∈
        opEdges [⟨false, 0, 1, 3⟩, ⟨false, 0, 1, 5⟩] by decide)
      (Walk.nil 1))
    rw [weight_cons, weight_nil] at this
    exact absurd this (by decide)
  · intro fuel
    show bfLoop fuel _ _ = none
    exact bfLoop_none (Walk.nil 0)
      (Walk.cons ⟨0, 1, 1⟩ 0 _ (by decide)
        (Walk.cons ⟨1, 2, -5⟩ 0 _ (by decide)
          (Walk.cons ⟨2, 0, 1⟩ 0 [] (by decide) (Walk.nil 0))))
      (by decide)
      (fun k => by
        match k with
        | 0 => decide
        | 1 => decide
        | 2 => decide
        | (k + 3) =>
          rw [List.take_of_length_le (by simp)]
          decide) fuel _ (by decide)

/-- C1 (amended): for every graph built by edge insertions whose vertex
identifiers are valid for the variant (below the distinct-vertex count for
BellmanFord and Dijkstra; below the constructed capacity for WarshalFloyd)
and whose edge costs are non-negative with total sum below the sentinel
`0x3f3f3f3f`, and — for WarshalFloyd — with no self-loops and at most one
insertion per ordered vertex pair, `shortestPath(from)` returns a sequence
holding, for every vertex index, the minimum total cost of a path from
`from` to that vertex, and the sentinel for every vertex unreachable from
`from`. -/
theorem C1_amended (ops : List Op) (v fr : Nat)
    (hval : ∀ e ∈ opEdges ops, e.fr < (opsVerts ops).length ∧
      e.toV < (opsVerts ops).length)
    (hfr : fr < (opsVerts ops).length)
    (hc : ∀ e ∈ opEdges ops, 0 ≤ e.cost)
    (hsum : sumCost (opEdges ops) < kInf) :
    (∃ fuel out, (buildBF ops).shortestPath_ fr fuel = some out ∧
      out.length = (opsVerts ops).length ∧
      ∀ u, (Reachable (opEdges ops) fr u →
          SpecDist (opEdges ops) fr u (out.getD u 0)) ∧
        (u < (opsVerts ops).length → ¬ Reachable (opEdges ops) fr u →
          out.getD u 0 = kInf)) ∧
    (∃ fuel out, (buildDij ops).shortestPath_ fr fuel = some out ∧
      out.length = (opsVerts ops).length ∧
      ∀ u, (Reachable (opEdges ops) fr u →
          SpecDist (opEdges ops) fr u (out.getD u 0)) ∧
        (u < (opsVerts ops).length → ¬ Reachable (opEdges ops) fr u →
          out.getD u 0 = kInf)) ∧
    ((∀ e ∈ opEdges ops, e.fr < v ∧ e.toV < v) → fr < v →
      ((opEdges ops).map (fun e => (e.fr, e.toV))).Nodup →
      (∀ e ∈ opEdges ops, e.fr ≠ e.toV) →
      ((buildWF v ops).shortestPath_ fr).1.length = v ∧
      ∀ u, u < v → (Reachable (opEdges ops) fr u →
          SpecDist (opEdges ops) fr u
            (((buildWF v ops).shortestPath_ fr).1.getD u 0)) ∧
        (¬ Reachable (opEdges ops) fr u →
          ((buildWF v ops).shortestPath_ fr).1.getD u 0 = kInf)) := by
  refine ⟨?_, ?_, ?_⟩
  · obtain ⟨fuel, out, hout, hlen, hcor⟩ :=
      @bf_run_correct (opEdges ops) ((opsVerts ops).length) fr
        hval hfr hc hsum
    refine ⟨fuel, out, ?_, hlen, hcor⟩
    show bfLoop fuel (buildBF ops).m_graph
      (bfInitD (buildBF ops).m_vertex.length fr) = some out
    rw [buildBF_graph, buildBF_vertex]
    exact hout
  · have hg : ∀ e, e ∈ opEdges ops ↔
        e ∈ dijEdges (buildDij ops).m_graph :=
      fun e => (mem_buildDij ops e).symm
    obtain ⟨fuel, out, hout, hlen, hcor⟩ :=
      @dij_run_correct (buildDij ops).m_graph (opEdges ops)
        ((opsVerts ops).length) fr hg hval hfr hc hsum
    refine ⟨fuel, out, ?_, hlen, hcor⟩
    show dijkstraRun fuel (buildDij ops).m_graph [((0 : Int), fr)]
      (bfInitD (buildDij ops).m_vertex.length fr) = some out
    rw [buildDij_vertex]
    exact hout
  · intro hvv hfrv hnd hns
    obtain ⟨hlen, hcor⟩ := wf_run_correct v ops fr hvv hfrv hc hsum hnd hns
    exact ⟨hlen, hcor⟩

/-- Witness for C1 (amended) at the specification's concrete scenario:
undirected edges `(0,1,4)`, `(0,2,1)`, `(2,1,2)`, `(1,3,1)`, `(2,3,5)`. -/
theorem C1_witness :
    (∀ e ∈ opEdges [⟨true, 0, 1, 4⟩, ⟨true, 0, 2, 1⟩, ⟨true, 2, 1, 2⟩,
        ⟨true, 1, 3, 1⟩, ⟨true, 2, 3, 5⟩],
      e.fr < (opsVerts [⟨true, 0, 1, 4⟩, ⟨true, 0, 2, 1⟩, ⟨true, 2, 1, 2⟩,
        ⟨true, 1, 3, 1⟩, ⟨true, 2, 3, 5⟩]).length ∧
      e.toV < (opsVerts [⟨true, 0, 1, 4⟩, ⟨true, 0, 2, 1⟩, ⟨true, 2, 1, 2⟩,
        ⟨true, 1, 3, 1⟩, ⟨true, 2, 3, 5⟩]).length) ∧
    (∃ fuel out,
      (buildBF [⟨true, 0, 1, 4⟩, ⟨true, 0, 2, 1⟩, ⟨true, 2, 1, 2⟩,
        ⟨true, 1, 3, 1⟩, ⟨true, 2, 3, 5⟩]).shortestPath_ 0 fuel =
        some out ∧
      out.length = (opsVerts [⟨true, 0, 1, 4⟩, ⟨true, 0, 2, 1⟩,
        ⟨true, 2, 1, 2⟩, ⟨true, 1, 3, 1⟩, ⟨true, 2, 3, 5⟩]).length ∧
      ∀ u, (Reachable (opEdges [⟨true, 0, 1, 4⟩, ⟨true, 0, 2, 1⟩,
            ⟨true, 2, 1, 2⟩, ⟨true, 1, 3, 1⟩, ⟨true, 2, 3, 5⟩]) 0 u →
          SpecDist (opEdges [⟨true, 0, 1, 4⟩, ⟨true, 0, 2, 1⟩,
            ⟨true, 2, 1, 2⟩, ⟨true, 1, 3, 1⟩, ⟨true, 2, 3, 5⟩]) 0 u
            (out.getD u 0)) ∧
        (u < (opsVerts [⟨true, 0, 1, 4⟩, ⟨true, 0, 2, 1⟩, ⟨true, 2, 1, 2⟩,
            ⟨true, 1, 3, 1⟩, ⟨true, 2, 3, 5⟩]).length →
          ¬ Reachable (opEdges [⟨true, 0, 1, 4⟩, ⟨true, 0, 2, 1⟩,
            ⟨true, 2, 1, 2⟩, ⟨true, 1, 3, 1⟩, ⟨true, 2, 3, 5⟩]) 0 u →
          out.getD u 0 = kInf)) := by
  refine ⟨by decide, ?_⟩
  exact (C1_amended [⟨true, 0, 1, 4⟩, ⟨true, 0, 2, 1⟩, ⟨true, 2, 1, 2⟩,
    ⟨true, 1, 3, 1⟩, ⟨true, 2, 3, 5⟩] 4 0 (by decide) (by decide)
    (by decide) (by decide)).1

theorem specDist_unique {g : List CEdge} {u v : Nat} {d d' : Int}
    (h : SpecDist g u v d) (h' : SpecDist g u v d') : d = d' := by
  obtain ⟨⟨l, hl, -, hw⟩, hall⟩ := h
  obtain ⟨⟨l', hl', -, hw'⟩, hall'⟩ := h'
  have h1 := hall' l hl
  have h2 := hall l' hl'
  omega

/-- C2: the claim fails as stated.  Two directed insertions for the ordered
pair `(0, 1)`, both with non-negative costs `5` then `99`: BellmanFord and
Dijkstra keep both edges and report the minimum `5`, while WarshalFloyd's
matrix cell is overwritten by the later cost and reports `99`. -/
theorem C2_counterexample :
    (∀ e ∈ opEdges [⟨false, 0, 1, 5⟩, ⟨false, 0, 1, 99⟩], 0 ≤ e.cost) ∧
    (buildBF [⟨false, 0, 1, 5⟩, ⟨false, 0, 1, 99⟩]).shortestPath_ 0 3 =
      some [0, 5] ∧
    (buildDij [⟨false, 0, 1, 5⟩, ⟨false, 0, 1, 99⟩]).shortestPath_ 0 3 =
      some [0, 5] ∧
    ((buildWF 2 [⟨false, 0, 1, 5⟩,
      ⟨false, 0, 1, 99⟩]).shortestPath_ 0).1.getD 1 0 = 99 ∧
    (5 : Int) ≠ 99 := by
  refine ⟨by decide, by decide, by decide, by decide, by decide⟩

/-- C2 (amended): for every graph built by in-range insertions with
non-negative costs summing below the sentinel, no self-loops and at most
one insertion per ordered pair, with the WarshalFloyd instance constructed
at capacity equal to the distinct-vertex count, the three solvers agree on
the distance between every pair of vertices. -/
theorem C2_amended (ops : List Op)
    (hval : ∀ e ∈ opEdges ops, e.fr < (opsVerts ops).length ∧
      e.toV < (opsVerts ops).length)
    (hc : ∀ e ∈ opEdges ops, 0 ≤ e.cost)
    (hsum : sumCost (opEdges ops) < kInf)
    (hnd : ((opEdges ops).map (fun e => (e.fr, e.toV))).Nodup)
    (hns : ∀ e ∈ opEdges ops, e.fr ≠ e.toV) :
    ∀ fr, fr < (opsVerts ops).length →
      ∃ fuelB outB fuelD outD,
        (buildBF ops).shortestPath_ fr fuelB = some outB ∧
        (buildDij ops).shortestPath_ fr fuelD = some outD ∧
        ∀ u, u < (opsVerts ops).length →
          outB.getD u 0 = outD.getD u 0 ∧
          outB.getD u 0 =
            ((buildWF (opsVerts ops).length ops).shortestPath_
              fr).1.getD u 0 := by
  intro fr hfr
  obtain ⟨fuelB, outB, houtB, hlenB, hcorB⟩ :=
    @bf_run_correct (opEdges ops) ((opsVerts ops).length) fr
      hval hfr hc hsum
  have hg : ∀ e, e ∈ opEdges ops ↔ e ∈ dijEdges (buildDij ops).m_graph :=
    fun e => (mem_buildDij ops e).symm
  obtain ⟨fuelD, outD, houtD, hlenD, hcorD⟩ :=
    @dij_run_correct (buildDij ops).m_graph (opEdges ops)
      ((opsVerts ops).length) fr hg hval hfr hc hsum
  obtain ⟨hlenW, hcorW⟩ :=
    wf_run_correct (opsVerts ops).length ops fr hval hfr hc hsum hnd hns
  refine ⟨fuelB, outB, fuelD, outD, ?_, ?_, ?_⟩
  · show bfLoop fuelB (buildBF ops).m_graph
      (bfInitD (buildBF ops).m_vertex.length fr) = some outB
    rw [buildBF_graph, buildBF_vertex]
    exact houtB
  · show dijkstraRun fuelD (buildDij ops).m_graph [((0 : Int), fr)]
      (bfInitD (buildDij ops).m_vertex.length fr) = some outD
    rw [buildDij_vertex]
    exact houtD
  · intro u hu
    by_cases hr : Reachable (opEdges ops) fr u
    · have h1 := (hcorB u).1 hr
      have h2 := (hcorD u).1 hr
      have h3 := (hcorW u hu).1 hr
      exact ⟨specDist_unique h1 h2, specDist_unique h1 h3⟩
    · have h1 := (hcorB u).2 hu hr
      have h2 := (hcorD u).2 hu hr
      have h3 := (hcorW u hu).2 hr
      rw [h1, h2, h3]
      exact ⟨rfl, rfl⟩

/-- Witness for C2 (amended) at the specification's concrete scenario. -/
theorem C2_witness :
    (∀ e ∈ opEdges [⟨true, 0, 1, 4⟩, ⟨true, 0, 2, 1⟩, ⟨true, 2, 1, 2⟩,
        ⟨true, 1, 3, 1⟩, ⟨true, 2, 3, 5⟩], 0 ≤ e.cost) ∧
    ∀ fr, fr < (opsVerts [⟨true, 0, 1, 4⟩, ⟨true, 0, 2, 1⟩,
        ⟨true, 2, 1, 2⟩, ⟨true, 1, 3, 1⟩, ⟨true, 2, 3, 5⟩]).length →
      ∃ fuelB outB fuelD outD,
        (buildBF [⟨true, 0, 1, 4⟩, ⟨true, 0, 2, 1⟩, ⟨true, 2, 1, 2⟩,
          ⟨true, 1, 3, 1⟩, ⟨true, 2, 3, 5⟩]).shortestPath_ fr fuelB =
          some outB ∧
        (buildDij [⟨true, 0, 1, 4⟩, ⟨true, 0, 2, 1⟩, ⟨true, 2, 1, 2⟩,
          ⟨true, 1, 3, 1⟩, ⟨true, 2, 3, 5⟩]).shortestPath_ fr fuelD =
          some outD ∧
        ∀ u, u < (opsVerts [⟨true, 0, 1, 4⟩, ⟨true, 0, 2, 1⟩,
            ⟨true, 2, 1, 2⟩, ⟨true, 1, 3, 1⟩, ⟨true, 2, 3, 5⟩]).length →
          outB.getD u 0 = outD.getD u 0 ∧
          outB.getD u 0 = ((buildWF (opsVerts [⟨true, 0, 1, 4⟩,
            ⟨true, 0, 2, 1⟩, ⟨true, 2, 1, 2⟩, ⟨true, 1, 3, 1⟩,
            ⟨true, 2, 3, 5⟩]).length [⟨true, 0, 1, 4⟩, ⟨true, 0, 2, 1⟩,
            ⟨true, 2, 1, 2⟩, ⟨true, 1, 3, 1⟩,
            ⟨true, 2, 3, 5⟩]).shortestPath_ fr).1.getD u 0 :=
  ⟨by decide, C2_amended [⟨true, 0, 1, 4⟩, ⟨true, 0, 2, 1⟩,
    ⟨true, 2, 1, 2⟩, ⟨true, 1, 3, 1⟩, ⟨true, 2, 3, 5⟩] (by decide)
    (by decide) (by decide) (by decide) (by decide)⟩

/-- C3: refuted as coded.  A `WarshalFloyd` of capacity `1` grows its matrix
to `2 * 2` cells on `addDirectedEdge(0, 1, 5)`, but the member `nVertex` is
never updated, so a subsequent solve still iterates a `1 * 1` matrix: the
row returned for vertex `0` is `[0]` and the inserted edge is invisible,
while the instance constructed directly at capacity `2` returns `[0, 5]`.
Moreover the post-growth write uses the stale stride: `addDirectedEdge(1,
0, 7)` lands cost `7` in cell `(0, 1)` of the grown matrix (flat index
`1 * 1 + 0 = 1`) instead of cell `(1, 0)`. -/
theorem C3_code_bug :
    ((WarshalFloyd.initV 1).addDirectedEdge_ 0 1 5).nVertex = 1 ∧
    ((WarshalFloyd.initV 1).addDirectedEdge_ 0 1 5).m_graph.length = 4 ∧
    (((WarshalFloyd.initV 1).addDirectedEdge_ 0 1 5).shortestPath_ 0).1 =
      [0] ∧
    (((WarshalFloyd.initV 2).addDirectedEdge_ 0 1 5).shortestPath_ 0).1 =
      [0, 5] ∧
    ((WarshalFloyd.initV 1).addDirectedEdge_ 1 0 7).m_graph =
      [0, 7, kInf, 0] := by
  refine ⟨rfl, by decide, by decide, by decide, by decide⟩

/-! ## Templated Dijkstra of `unnamed/part_000` (`Dijkstra<T, U>`) -/

/-- `Edge<T, U>` of `unnamed/part_000`: source, destination and cost. -/
structure TEdge where
  fr : Nat
  toV : Nat
  cost : Int
deriving DecidableEq, Repr

/-- State of the templated `Dijkstra<T, U>` of `unnamed/part_000`. -/
structure DijkstraT where
  m_graph : List (List TEdge)
  m_vertex : List Nat
deriving Repr

/-- `Dijkstra<T, U>()` default constructor. -/
def DijkstraT.init : DijkstraT := ⟨[], []⟩

/-- `Dijkstra<T, U>::addDirectedEdge_`: conditional resize, then
`m_graph[from].emplace_back(from, to, cost)`. -/
def DijkstraT.addDirectedEdge_ (st : DijkstraT) (fr toV : Nat)
    (cost : Int) : DijkstraT :=
  let gr := if st.m_graph.length ≤ max fr toV then
      st.m_graph ++ List.replicate (max fr toV + 1 - st.m_graph.length) []
    else st.m_graph
  { m_graph := gr.set fr (gr.getD fr [] ++ [⟨fr, toV, cost⟩]),
    m_vertex := vinsert (vinsert st.m_vertex fr) toV }

/-- `Dijkstra<T, U>::addEdge_`, exactly as coded: the directed insertion,
then `m_graph[to].emplace_back(from, to, cost)` — the record appended to
slot `to` keeps `to` as its destination field. -/
def DijkstraT.addEdge_ (st : DijkstraT) (fr toV : Nat) (cost : Int) :
    DijkstraT :=
  let st' := st.addDirectedEdge_ fr toV cost
  { st' with m_graph :=
      st'.m_graph.set toV (st'.m_graph.getD toV [] ++ [⟨fr, toV, cost⟩]) }

/-- Inner relaxation loop of the templated `shortestPath_` (it reads only
the `to` and `cost` fields of each adjacent edge). -/
def dijRelaxT (v : Nat) : List TEdge → List Int → List (Int × Nat) →
    List Int × List (Int × Nat)
  | [], d, q => (d, q)
  | e :: es, d, q =>
    if d.getD e.toV 0 > d.getD v 0 + e.cost then
      dijRelaxT v es (d.set e.toV (d.getD v 0 + e.cost))
        ((d.getD v 0 + e.cost, e.toV) :: q)
    else dijRelaxT v es d q

/-- The main queue loop of the templated `shortestPath_`, with fuel. -/
def dijkstraRunT : Nat → List (List TEdge) → List (Int × Nat) →
    List Int → Option (List Int)
  | 0, _, _, _ => none
  | fuel + 1, adj, q, d =>
    match popMin q with
    | none => some d
    | some (p, rest) =>
      if d.getD p.2 0 < p.1 then dijkstraRunT fuel adj rest d
      else
        let r := dijRelaxT p.2 (adj.getD p.2 []) d rest
        dijkstraRunT fuel adj r.2 r.1

/-- `Dijkstra<T, U>::shortestPath_(from)`, run for at most `fuel` queue
iterations. -/
def DijkstraT.shortestPath_ (st : DijkstraT) (fr : Nat) (fuel : Nat) :
    Option (List Int) :=
  dijkstraRunT fuel st.m_graph [((0 : Int), fr)]
    (bfInitD st.m_vertex.length fr)

/-- C4: refuted for the templated Dijkstra of `unnamed/part_000`, whose
`addEdge_` appends `Edge(from, to, cost)` to slot `to` — a record whose
destination field is `to` itself, a self-loop — instead of the reverse
edge `Edge(to, from, cost)`.  After `addEdge(0, 1, 5)` the state differs
from the two directed insertions, and `shortestPath(1)` leaves vertex `0`
at the sentinel instead of `5`: `from` does not become reachable from
`to`. -/
theorem C4_code_bug :
    (DijkstraT.init.addEdge_ 0 1 5).m_graph =
      [[⟨0, 1, 5⟩], [⟨0, 1, 5⟩]] ∧
    ((DijkstraT.init.addDirectedEdge_ 0 1 5).addDirectedEdge_ 1 0 5).m_graph
      = [[⟨0, 1, 5⟩], [⟨1, 0, 5⟩]] ∧
    (DijkstraT.init.addEdge_ 0 1 5).m_graph ≠
      ((DijkstraT.init.addDirectedEdge_ 0 1 5).addDirectedEdge_
        1 0 5).m_graph ∧
    (DijkstraT.init.addEdge_ 0 1 5).shortestPath_ 1 4 =
      some [kInf, 0] ∧
    ((DijkstraT.init.addDirectedEdge_ 0 1 5).addDirectedEdge_
      1 0 5).shortestPath_ 1 4 = some [5, 0] := by
  refine ⟨by decide, by decide, by decide, by decide, by decide⟩

/-- C5: the non-termination half of the claim fails as stated.  The cycle
`1 -> 2 -> 1` of weight `-2` is reachable from source `0` (edge
`(0, 1, kInf)`), yet the very first relaxation pass produces no update —
the `dists[from] != kInf` guard and the non-strict comparison freeze every
edge — so `shortestPath(0)` terminates at once with `[0, kInf, kInf]`. -/
theorem C5_counterexample :
    (buildBF [⟨false, 0, 1, kInf⟩, ⟨false, 1, 2, -1⟩,
      ⟨false, 2, 1, -1⟩]).shortestPath_ 0 1 = some [0, kInf, kInf] ∧
    Walk (opEdges [⟨false, 0, 1, kInf⟩, ⟨false, 1, 2, -1⟩,
      ⟨false, 2, 1, -1⟩]) 0 1 [⟨0, 1, kInf⟩] ∧
    Walk (opEdges [⟨false, 0, 1, kInf⟩, ⟨false, 1, 2, -1⟩,
      ⟨false, 2, 1, -1⟩]) 1 1 [⟨1, 2, -1⟩, ⟨2, 1, -1⟩] ∧
    weight [(⟨1, 2, -1⟩ : CEdge), ⟨2, 1, -1⟩] < 0 := by
  refine ⟨by decide, ?_, ?_, by decide⟩
  · exact Walk.cons ⟨0, 1, kInf⟩ 1 [] (by decide) (Walk.nil 1)
  · exact Walk.cons ⟨1, 2, -1⟩ 1 [⟨2, 1, -1⟩] (by decide)
      (Walk.cons ⟨2, 1, -1⟩ 1 [] (by decide) (Walk.nil 1))

/-- C5 (amended): from a valid source, BellmanFord's pass-until-no-update
loop terminates in a state where every stored edge satisfies the no-update
condition whenever every cycle reachable from the source has non-negative
weight; and it fails to terminate (for every fuel) when a negative cycle
is reachable from the source through a walk all of whose prefix weights
stay below the sentinel.  Without that prefix bound the claim is false:
the `dists[from] != kInf` guard can freeze relaxation before the cycle is
ever reached. -/
theorem C5_amended (st : BellmanFord) (s : Nat)
    (hval : ∀ e ∈ st.m_graph, e.fr < st.m_vertex.length ∧
      e.toV < st.m_vertex.length)
    (hs : s < st.m_vertex.length) :
    ((∀ x l, Reachable st.m_graph s x → Walk st.m_graph x x l →
        0 ≤ weight l) →
      ∃ fuel out, st.shortestPath_ s fuel = some out ∧
        ∀ e ∈ st.m_graph, BFfix out e) ∧
    (∀ x l1 l2, Walk st.m_graph s x l1 → Walk st.m_graph x x l2 →
      weight l2 < 0 → (∀ k, weight ((l1 ++ l2).take k) < kInf) →
      ∀ fuel, st.shortestPath_ s fuel = none) := by
  have hlen := bfInitD_length st.m_vertex.length s
  obtain ⟨hub, hw, hs0⟩ := @bfInitD_inv st.m_graph s st.m_vertex.length hs
  constructor
  · intro hcyc
    have hval' : ∀ e ∈ st.m_graph,
        e.fr < (bfInitD st.m_vertex.length s).length ∧
        e.toV < (bfInitD st.m_vertex.length s).length := by
      rw [hlen]; exact hval
    obtain ⟨fuel, out, hout⟩ :=
      bfLoop_term hcyc _ (bfInitD st.m_vertex.length s) hval' hub hw le_rfl
    obtain ⟨-, -, -, -, hfix⟩ :=
      bfLoop_some_spec fuel _ out hout hval' hub hw hs0
    exact ⟨fuel, out, hout, hfix⟩
  · intro x l1 l2 hw1 hw2 hneg hpre fuel
    exact bfLoop_none hw1 hw2 hneg hpre fuel _ hs0

/-- Witness for C5 (amended) on the single-edge graph `(0, 1, 1)`. -/
theorem C5_witness :
    ((∀ e ∈ (buildBF [⟨false, 0, 1, 1⟩]).m_graph,
        e.fr < (buildBF [⟨false, 0, 1, 1⟩]).m_vertex.length ∧
        e.toV < (buildBF [⟨false, 0, 1, 1⟩]).m_vertex.length) ∧
      0 < (buildBF [⟨false, 0, 1, 1⟩]).m_vertex.length) ∧
    ((∀ x l, Reachable (buildBF [⟨false, 0, 1, 1⟩]).m_graph 0 x →
        Walk (buildBF [⟨false, 0, 1, 1⟩]).m_graph x x l → 0 ≤ weight l) →
      ∃ fuel out,
        (buildBF [⟨false, 0, 1, 1⟩]).shortestPath_ 0 fuel = some out ∧
        ∀ e ∈ (buildBF [⟨false, 0, 1, 1⟩]).m_graph, BFfix out e) ∧
    (∀ x l1 l2, Walk (buildBF [⟨false, 0, 1, 1⟩]).m_graph 0 x l1 →
      Walk (buildBF [⟨false, 0, 1, 1⟩]).m_graph x x l2 →
      weight l2 < 0 → (∀ k, weight ((l1 ++ l2).take k) < kInf) →
      ∀ fuel, (buildBF [⟨false, 0, 1, 1⟩]).shortestPath_ 0 fuel = none) :=
  ⟨⟨by decide, by decide⟩,
    C5_amended (buildBF [⟨false, 0, 1, 1⟩]) 0 (by decide) (by decide)⟩

/-- C6: refuted as coded.  After `addDirectedEdge(0, 5, 7)` both
BellmanFord and Dijkstra track `2` distinct vertices, so `shortestPath`
allocates a distance vector of length `2`, yet the stored edge targets
index `5`: the bounds invariant that every per-vertex access stays within
the storage is violated (`dists[5]` in the C++ code indexes a
2-element vector — undefined behaviour, not a correct run sized by the
maximum identifier). -/
theorem C6_code_bug :
    (buildBF [⟨false, 0, 5, 7⟩]).m_vertex.length = 2 ∧
    (∃ e ∈ (buildBF [⟨false, 0, 5, 7⟩]).m_graph,
      ¬ e.toV < (buildBF [⟨false, 0, 5, 7⟩]).m_vertex.length) ∧
    (buildDij [⟨false, 0, 5, 7⟩]).m_vertex.length = 2 ∧
    (∃ e ∈ dijEdges (buildDij [⟨false, 0, 5, 7⟩]).m_graph,
      ¬ e.toV < (buildDij [⟨false, 0, 5, 7⟩]).m_vertex.length) := by
  refine ⟨rfl, ?_, rfl, ?_⟩
  · exact ⟨⟨0, 5, 7⟩, by decide, by decide⟩
  · exact ⟨⟨0, 5, 7⟩, by decide, by decide⟩

/-! ## UnionFind (`src/UnionFind.hpp`) -/

/-- State of class `UnionFind`: parent array `m_par` and rank array
`m_rank`. -/
structure UnionFind where
  m_par : List Nat
  m_rank : List Int
deriving DecidableEq, Repr

/-- `UnionFind(n)`: parents `0, 1, ..., n-1` (by `std::iota`), ranks
value-initialized to `0`. -/
def UnionFind.init (n : Nat) : UnionFind :=
  ⟨List.range n, List.replicate n 0⟩

/-- `UnionFind::find` with path compression, fueled:
`m_par[x] == x ? x : (m_par[x] = find(m_par[x]))`.  The recursive descent
reads the untouched array (all writes happen on the way out, deepest node
first), so the recursion passes `par` unchanged and the compression write
`par'.set x r` is applied to the result of the deeper call. -/
def ufFind : Nat → List Nat → Nat → Option (Nat × List Nat)
  | 0, _, _ => none
  | fuel + 1, par, x =>
    if par.getD x 0 = x then some (x, par)
    else
      match ufFind fuel par (par.getD x 0) with
      | none => none
      | some (r, par') => some (r, par'.set x r)

/-- `UnionFind::find` on the whole state. -/
def UnionFind.find (st : UnionFind) (x fuel : Nat) :
    Option (Nat × UnionFind) :=
  match ufFind fuel st.m_par x with
  | none => none
  | some (r, par') => some (r, { st with m_par := par' })

/-- `UnionFind::unite`: two finds, then union by rank (attach the root of
lower rank below the other; on a tie attach `y`'s root below `x`'s and
increment the latter's rank). -/
def UnionFind.unite (st : UnionFind) (x y fuel : Nat) : Option UnionFind :=
  match ufFind fuel st.m_par x with
  | none => none
  | some (rx, par1) =>
    match ufFind fuel par1 y with
    | none => none
    | some (ry, par2) =>
      if rx = ry then some { st with m_par := par2 }
      else if st.m_rank.getD rx 0 < st.m_rank.getD ry 0 then
        some { m_par := par2.set rx ry, m_rank := st.m_rank }
      else
        some { m_par := par2.set ry rx,
               m_rank := if st.m_rank.getD rx 0 = st.m_rank.getD ry 0 then
                   st.m_rank.set rx (st.m_rank.getD rx 0 + 1)
                 else st.m_rank }

/-- `UnionFind::isSame`: `find(x) == find(y)` (both calls compress). -/
def UnionFind.isSame (st : UnionFind) (x y fuel : Nat) :
    Option (Bool × UnionFind) :=
  match ufFind fuel st.m_par x with
  | none => none
  | some (rx, par1) =>
    match ufFind fuel par1 y with
    | none => none
    | some (ry, par2) => some (rx == ry, { st with m_par := par2 })

/-- `k`-fold parent step. -/
def parIter (par : List Nat) : Nat → Nat → Nat
  | 0, x => x
  | k + 1, x => parIter par k (par.getD x 0)

/-- `r` is the representative of `x`: reachable by parent steps and a
fixpoint of the parent map. -/
def Root (par : List Nat) (x r : Nat) : Prop :=
  (∃ k, parIter par k x = r) ∧ par.getD r 0 = r

theorem parIter_fix {par : List Nat} {r : Nat} (h : par.getD r 0 = r) :
    ∀ k, parIter par k r = r := by
  intro k
  induction k with
  | zero => rfl
  | succ k ih => rw [parIter, h]; exact ih

theorem parIter_add (par : List Nat) (a b x : Nat) :
    parIter par (a + b) x = parIter par b (parIter par a x) := by
  induction a generalizing x with
  | zero => rw [Nat.zero_add]; rfl
  | succ a ih =>
    rw [show a + 1 + b = (a + b) + 1 from by omega, parIter, parIter, ih]

theorem root_unique {par : List Nat} {x r r' : Nat} (h : Root par x r)
    (h' : Root par x r') : r = r' := by
  obtain ⟨⟨k, hk⟩, hfix⟩ := h
  obtain ⟨⟨k', hk'⟩, hfix'⟩ := h'
  rcases Nat.le_total k k' with hle | hle
  · have := parIter_add par k (k' - k) x
    rw [show k + (k' - k) = k' from by omega, hk', hk,
      parIter_fix hfix] at this
    exact this.symm
  · have := parIter_add par k' (k - k') x
    rw [show k' + (k - k') = k from by omega, hk, hk',
      parIter_fix hfix'] at this
    exact this

theorem root_step {par : List Nat} {x r : Nat}
    (h : Root par (par.getD x 0) r) : Root par x r := by
  obtain ⟨⟨k, hk⟩, hfix⟩ := h
  exact ⟨⟨k + 1, by rw [parIter]; exact hk⟩, hfix⟩

theorem root_of_fix {par : List Nat} {x : Nat} (h : par.getD x 0 = x) :
    Root par x x := ⟨⟨0, rfl⟩, h⟩

theorem root_lt {par : List Nat} {y r : Nat} (h : Root par y r)
    (hn : 0 < par.length) : r < par.length := by
  by_contra hge
  have : par.getD r 0 = 0 := List.getD_eq_default _ _ (by omega)
  rw [h.2] at this
  omega

theorem root_len_zero {par : List Nat} {y r : Nat} (h : Root par y r)
    (hn : par.length = 0) : r = 0 := by
  have : par.getD r 0 = 0 := List.getD_eq_default _ _ (by omega)
  rw [h.2] at this
  exact this

theorem root_set_fwd {par : List Nat} {x r : Nat} (hx : x < par.length)
    (hroot : Root par x r) :
    ∀ k y s, parIter par k y = s → par.getD s 0 = s →
      Root (par.set x r) y s := by
  intro k
  induction k with
  | zero =>
    intro y s hk hs
    subst hk
    by_cases hyx : y = x
    · subst hyx
      have hr : r = y := root_unique hroot (root_of_fix hs)
      subst hr
      exact root_of_fix (by rw [getD_set_self _ _ hx])
    · exact root_of_fix (by rw [getD_set_ne _ _ hyx]; exact hs)
  | succ k ih =>
    intro y s hk hs
    by_cases hyx : y = x
    · subst hyx
      have hsr : s = r := root_unique ⟨⟨k + 1, hk⟩, hs⟩ hroot
      subst hsr
      have hxr : (par.set y s).getD y 0 = s := getD_set_self _ _ hx
      refine ⟨⟨1, ?_⟩, ?_⟩
      · rw [parIter, hxr]; rfl
      · by_cases hrx : s = y
        · rw [hrx]; exact hrx ▸ hxr
        · rw [getD_set_ne _ _ hrx]; exact hs
    · rw [parIter] at hk
      have := ih (par.getD y 0) s hk hs
      refine root_step ?_
      rw [getD_set_ne _ _ hyx]
      exact this

theorem root_set_bwd {par : List Nat} {x r : Nat} (hx : x < par.length)
    (hroot : Root par x r) :
    ∀ k y s, parIter (par.set x r) k y = s →
      (par.set x r).getD s 0 = s → Root par y s := by
  intro k
  induction k with
  | zero =>
    intro y s hk hs
    simp only [parIter] at hk
    rw [← hk] at hs ⊢
    by_cases hyx : y = x
    · rw [hyx] at hs ⊢
      rw [getD_set_self _ _ hx] at hs
      rw [hs] at hroot
      exact hroot
    · rw [getD_set_ne _ _ hyx] at hs
      exact root_of_fix hs
  | succ k ih =>
    intro y s hk hs
    rw [parIter] at hk
    by_cases hyx : y = x
    · subst hyx
      rw [getD_set_self _ _ hx] at hk
      have hser : Root par r s := ih r s hk hs
      have : s = r := root_unique hser (root_of_fix hroot.2)
      subst this
      exact hroot
    · rw [getD_set_ne _ _ hyx] at hk
      exact root_step (ih _ s hk hs)

theorem root_set_iff {par : List Nat} {x r : Nat} (hx : x < par.length)
    (hroot : Root par x r) (y s : Nat) :
    Root par y s ↔ Root (par.set x r) y s := by
  constructor
  · rintro ⟨⟨k, hk⟩, hs⟩
    exact root_set_fwd hx hroot k y s hk hs
  · rintro ⟨⟨k, hk⟩, hs⟩
    exact root_set_bwd hx hroot k y s hk hs

theorem root_link {par : List Nat} {ra rb : Nat} (ha : ra < par.length)
    (haroot : par.getD ra 0 = ra) (hb : par.getD rb 0 = rb)
    (hne : rb ≠ ra) :
    ∀ k y, parIter par k y = ra → Root (par.set ra rb) y rb := by
  have hself : ∀ y, y = ra → Root (par.set ra rb) y rb := by
    intro y hy
    subst hy
    refine ⟨⟨1, ?_⟩, ?_⟩
    · rw [parIter, getD_set_self _ _ ha]; rfl
    · rw [getD_set_ne _ _ hne]; exact hb
  intro k
  induction k with
  | zero =>
    intro y hk
    exact hself y hk
  | succ k ih =>
    intro y hk
    by_cases hyx : y = ra
    · exact hself y hyx
    · rw [parIter] at hk
      refine root_step ?_
      rw [getD_set_ne _ _ hyx]
      exact ih _ hk

theorem root_keep {par : List Nat} {ra rb s : Nat}
    (haroot : par.getD ra 0 = ra) (hs : s ≠ ra) (hfix : par.getD s 0 = s) :
    ∀ k y, parIter par k y = s → Root (par.set ra rb) y s := by
  intro k
  induction k with
  | zero =>
    intro y hk
    simp only [parIter] at hk
    rw [hk]
    exact root_of_fix (by rw [getD_set_ne _ _ hs]; exact hfix)
  | succ k ih =>
    intro y hk
    by_cases hyx : y = ra
    · subst hyx
      rw [parIter, haroot, parIter_fix haroot k] at hk
      exact absurd hk.symm hs
    · rw [parIter] at hk
      refine root_step ?_
      rw [getD_set_ne _ _ hyx]
      exact ih _ hk

theorem ufFind_spec : ∀ (fuel : Nat) (par : List Nat) (x r : Nat)
    (par' : List Nat), ufFind fuel par x = some (r, par') →
    Root par x r ∧ par'.length = par.length ∧
      ∀ y s, Root par y s ↔ Root par' y s := by
  intro fuel
  induction fuel with
  | zero => intro par x r par' h; simp [ufFind] at h
  | succ fuel ih =>
    intro par x r par' h
    rw [ufFind] at h
    by_cases hx : par.getD x 0 = x
    · rw [if_pos hx] at h
      injection h with h'
      injection h' with h1 h2
      subst h1; subst h2
      exact ⟨root_of_fix hx, rfl, fun _ _ => Iff.rfl⟩
    · rw [if_neg hx] at h
      cases heq : ufFind fuel par (par.getD x 0) with
      | none => rw [heq] at h; simp at h
      | some p =>
        obtain ⟨r0, par0⟩ := p
        rw [heq] at h
        simp only at h
        injection h with h'
        injection h' with h1 h2
        rw [h1] at heq
        rw [h1] at h2
        obtain ⟨hroot0, hlen0, hiff0⟩ := ih par (par.getD x 0) r par0 heq
        have hrootx : Root par x r := root_step hroot0
        have hrootx0 : Root par0 x r := (hiff0 x r).mp hrootx
        by_cases hxl : x < par0.length
        · have hiff1 := fun y s => root_set_iff hxl hrootx0 y s
          subst h2
          refine ⟨hrootx, ?_, ?_⟩
          · rw [List.length_set]; exact hlen0
          · intro y s
            exact (hiff0 y s).trans (hiff1 y s)
        · have hset : par0.set x r = par0 :=
            List.set_eq_of_length_le (by omega)
          subst h2
          rw [hset]
          exact ⟨hrootx, hlen0, hiff0⟩

theorem ufFind_total : ∀ (k : Nat) (par : List Nat) (x r : Nat),
    parIter par k x = r → par.getD r 0 = r →
    ∃ par', ufFind (k + 1) par x = some (r, par') := by
  intro k
  induction k with
  | zero =>
    intro par x r hk hfix
    simp only [parIter] at hk
    subst hk
    exact ⟨par, by rw [ufFind, if_pos hfix]⟩
  | succ k ih =>
    intro par x r hk hfix
    by_cases hx : par.getD x 0 = x
    · rw [parIter, hx, parIter_fix hx k] at hk
      subst hk
      exact ⟨par, by rw [ufFind, if_pos hx]⟩
    · rw [parIter] at hk
      obtain ⟨par0, h0⟩ := ih par (par.getD x 0) r hk hfix
      refine ⟨par0.set x r, ?_⟩
      rw [ufFind, if_neg hx, h0]

theorem ufFind_mono : ∀ (fuel fuel' : Nat) (par : List Nat) (x : Nat)
    (v : Nat × List Nat), fuel ≤ fuel' → ufFind fuel par x = some v →
    ufFind fuel' par x = some v := by
  intro fuel
  induction fuel with
  | zero => intro fuel' par x v _ h; simp [ufFind] at h
  | succ fuel ih =>
    intro fuel' par x v hle h
    obtain ⟨fuel2, rfl⟩ : ∃ f2, fuel' = f2 + 1 :=
      ⟨fuel' - 1, by omega⟩
    rw [ufFind] at h ⊢
    by_cases hx : par.getD x 0 = x
    · rw [if_pos hx] at h ⊢; exact h
    · rw [if_neg hx] at h ⊢
      cases heq : ufFind fuel par (par.getD x 0) with
      | none => rw [heq] at h; simp at h
      | some p =>
        rw [heq] at h
        rw [ih fuel2 par (par.getD x 0) p (by omega) heq]
        exact h

theorem isSame_eval {st : UnionFind} {x y rx ry : Nat}
    (h1 : Root st.m_par x rx) (h2 : Root st.m_par y ry) :
    ∃ f st2, st.isSame x y f = some (rx == ry, st2) := by
  obtain ⟨⟨k1, hk1⟩, hfix1⟩ := h1
  obtain ⟨parA, hA⟩ := ufFind_total k1 st.m_par x rx hk1 hfix1
  obtain ⟨-, -, hiffA⟩ := ufFind_spec _ _ _ _ _ hA
  have h2A : Root parA y ry := (hiffA y ry).mp h2
  obtain ⟨⟨k2, hk2⟩, hfix2⟩ := h2A
  obtain ⟨parB, hB⟩ := ufFind_total k2 parA y ry hk2 hfix2
  refine ⟨max (k1 + 1) (k2 + 1), ⟨parB, st.m_rank⟩, ?_⟩
  simp only [UnionFind.isSame,
    ufFind_mono _ _ _ _ _ (le_max_left (k1 + 1) (k2 + 1)) hA,
    ufFind_mono _ _ _ _ _ (le_max_right (k1 + 1) (k2 + 1)) hB]

/-- C7: for every `UnionFind` state and valid element indices `x` and `y`,
immediately after a successful `unite(x, y)` the query `isSame(x, y)`
succeeds and returns `true`. -/
theorem C7_unite_isSame (st : UnionFind) (x y fuel : Nat)
    (st' : UnionFind) (hx : x < st.m_par.length)
    (hy : y < st.m_par.length) (hu : st.unite x y fuel = some st') :
    ∃ f st2, st'.isSame x y f = some (true, st2) := by
  unfold UnionFind.unite at hu
  cases h1 : ufFind fuel st.m_par x with
  | none => rw [h1] at hu; simp at hu
  | some p1 =>
    obtain ⟨rx, par1⟩ := p1
    rw [h1] at hu
    simp only at hu
    cases h2 : ufFind fuel par1 y with
    | none => rw [h2] at hu; simp at hu
    | some p2 =>
      obtain ⟨ry, par2⟩ := p2
      rw [h2] at hu
      simp only at hu
      obtain ⟨hrootx, hlen1, hiff1⟩ := ufFind_spec _ _ _ _ _ h1
      obtain ⟨hrooty, hlen2, hiff2⟩ := ufFind_spec _ _ _ _ _ h2
      have hrx2 : Root par2 x rx := (hiff2 x rx).mp ((hiff1 x rx).mp hrootx)
      have hry2 : Root par2 y ry := (hiff2 y ry).mp hrooty
      by_cases hxy : rx = ry
      · rw [if_pos hxy] at hu
        injection hu with hu'
        subst hu'
        obtain ⟨f, st2, hs⟩ :=
          @isSame_eval { st with m_par := par2 } x y rx ry hrx2 hry2
        refine ⟨f, st2, ?_⟩
        rw [hs]
        rw [show (rx == ry) = true from by simp [hxy]]
      · rw [if_neg hxy] at hu
        have hpos : 0 < par2.length := by
          by_contra hz
          have h0 : par2.length = 0 := by omega
          have e1 := root_len_zero hrx2 h0
          have e2 := root_len_zero hry2 h0
          omega
        have hxlt : rx < par2.length := root_lt hrx2 hpos
        have hylt : ry < par2.length := root_lt hry2 hpos
        obtain ⟨kx, hkx⟩ := hrx2.1
        obtain ⟨ky, hky⟩ := hry2.1
        by_cases hrk : st.m_rank.getD rx 0 < st.m_rank.getD ry 0
        · rw [if_pos hrk] at hu
          injection hu with hu'
          subst hu'
          have hRx : Root (par2.set rx ry) x ry :=
            root_link hxlt hrx2.2 hry2.2 (Ne.symm hxy) kx x hkx
          have hRy : Root (par2.set rx ry) y ry :=
            root_keep hrx2.2 (Ne.symm hxy) hry2.2 ky y hky
          obtain ⟨f, st2, hs⟩ :=
            @isSame_eval ⟨par2.set rx ry, st.m_rank⟩ x y ry ry hRx hRy
          refine ⟨f, st2, ?_⟩
          rw [hs]
          rw [show (ry == ry) = true from by simp]
        · rw [if_neg hrk] at hu
          injection hu with hu'
          subst hu'
          have hRx : Root (par2.set ry rx) x rx :=
            root_keep hry2.2 hxy hrx2.2 kx x hkx
          have hRy : Root (par2.set ry rx) y rx :=
            root_link hylt hry2.2 hrx2.2 hxy ky y hky
          obtain ⟨f, st2, hs⟩ := @isSame_eval
            ⟨par2.set ry rx,
              if st.m_rank.getD rx 0 = st.m_rank.getD ry 0 then
                st.m_rank.set rx (st.m_rank.getD rx 0 + 1)
              else st.m_rank⟩ x y rx rx hRx hRy
          refine ⟨f, st2, ?_⟩
          rw [hs]
          rw [show (rx == rx) = true from by simp]

/-- Witness for C7 on `UnionFind(2)` followed by `unite(0, 1)`. -/
theorem C7_witness :
    ((0 < ((UnionFind.init 2).m_par.length) ∧
        1 < ((UnionFind.init 2).m_par.length)) ∧
      (UnionFind.init 2).unite 0 1 3 =
        some (⟨[0, 0], [1, 0]⟩ : UnionFind)) ∧
    ∃ f st2, (⟨[0, 0], [1, 0]⟩ : UnionFind).isSame 0 1 f =
      some (true, st2) :=
  ⟨⟨⟨by decide, by decide⟩, by decide⟩,
    C7_unite_isSame (UnionFind.init 2) 0 1 3 ⟨[0, 0], [1, 0]⟩
      (by decide) (by decide) (by decide)⟩

/-- C10: a `find(x)` call preserves the partition: if `isSame(a, b)`
returned `v` before the find, it returns the same `v` (for some fuel)
after it — path compression rewrites parent pointers but never moves an
element to a different group. -/
theorem C10_find_isSame (st : UnionFind) (x a b : Nat)
    (ha : a < st.m_par.length) (hb : b < st.m_par.length)
    (fuel f1 : Nat) (r : Nat) (st' : UnionFind)
    (hfind : st.find x fuel = some (r, st'))
    (v1 : Bool) (st1 : UnionFind)
    (h1 : st.isSame a b f1 = some (v1, st1)) :
    ∃ f2 st2, st'.isSame a b f2 = some (v1, st2) := by
  unfold UnionFind.find at hfind
  cases hF : ufFind fuel st.m_par x with
  | none => rw [hF] at hfind; simp at hfind
  | some p =>
    obtain ⟨rF, parF⟩ := p
    rw [hF] at hfind
    simp only at hfind
    injection hfind with h'
    injection h' with hr hst
    subst hst
    obtain ⟨-, -, hiffF⟩ := ufFind_spec _ _ _ _ _ hF
    unfold UnionFind.isSame at h1
    cases hA : ufFind f1 st.m_par a with
    | none => rw [hA] at h1; simp at h1
    | some pa =>
      obtain ⟨ra, parA⟩ := pa
      rw [hA] at h1
      simp only at h1
      cases hB : ufFind f1 parA b with
      | none => rw [hB] at h1; simp at h1
      | some pb =>
        obtain ⟨rb, parB⟩ := pb
        rw [hB] at h1
        simp only at h1
        injection h1 with h1'
        injection h1' with hv hstB
        obtain ⟨hroota, -, hiffA⟩ := ufFind_spec _ _ _ _ _ hA
        obtain ⟨hrootb, -, hiffB⟩ := ufFind_spec _ _ _ _ _ hB
        have hrootb0 : Root st.m_par b rb := (hiffA b rb).mpr hrootb
        have hra : Root parF a ra := (hiffF a ra).mp hroota
        have hrb : Root parF b rb := (hiffF b rb).mp hrootb0
        obtain ⟨f2, st2, hs⟩ :=
          @isSame_eval { st with m_par := parF } a b ra rb hra hrb
        refine ⟨f2, st2, ?_⟩
        rw [hs, hv]

/-- Witness for C10: a find that actually compresses (parent chain
`0 -> 1 -> 2`), with `isSame(0, 1)` true both before and after. -/
theorem C10_witness :
    ((0 < ((⟨[1, 2, 2], [0, 0, 1]⟩ : UnionFind).m_par.length) ∧
        1 < ((⟨[1, 2, 2], [0, 0, 1]⟩ : UnionFind).m_par.length)) ∧
      (⟨[1, 2, 2], [0, 0, 1]⟩ : UnionFind).find 0 3 =
        some (2, (⟨[2, 2, 2], [0, 0, 1]⟩ : UnionFind)) ∧
      (⟨[1, 2, 2], [0, 0, 1]⟩ : UnionFind).isSame 0 1 3 =
        some (true, (⟨[2, 2, 2], [0, 0, 1]⟩ : UnionFind))) ∧
    ∃ f2 st2, (⟨[2, 2, 2], [0, 0, 1]⟩ : UnionFind).isSame 0 1 f2 =
      some (true, st2) :=
  ⟨⟨⟨by decide, by decide⟩, by decide, by decide⟩,
    C10_find_isSame ⟨[1, 2, 2], [0, 0, 1]⟩ 0 0 1 (by decide) (by decide)
      3 3 2 ⟨[2, 2, 2], [0, 0, 1]⟩ (by decide) true
      ⟨[2, 2, 2], [0, 0, 1]⟩ (by decide)⟩

/-- C9: `BellmanFord::shortestPath_` and `Dijkstra::shortestPath_` read
only the stored edge list / adjacency lists and the tracked vertex set
(the distance vector and queue are locals), so any two instances agreeing
on those members — in particular one instance queried twice in a row —
return identical results; `WarshalFloyd::shortestPath_`, by contrast,
mutates the stored matrix in place, shown here on a concrete instance. -/
theorem C9_frame (st1 st2 : BellmanFord) (dt1 dt2 : Dijkstra)
    (fr fuel : Nat)
    (hbg : st1.m_graph = st2.m_graph) (hbv : st1.m_vertex = st2.m_vertex)
    (hdg : dt1.m_graph = dt2.m_graph) (hdv : dt1.m_vertex = dt2.m_vertex) :
    st1.shortestPath_ fr fuel = st2.shortestPath_ fr fuel ∧
    dt1.shortestPath_ fr fuel = dt2.shortestPath_ fr fuel ∧
    ((buildWF 3 [⟨false, 0, 1, 1⟩, ⟨false, 1, 2, 1⟩]).shortestPath_
        0).2.m_graph ≠
      (buildWF 3 [⟨false, 0, 1, 1⟩, ⟨false, 1, 2, 1⟩]).m_graph := by
  refine ⟨?_, ?_, by decide⟩
  · unfold BellmanFord.shortestPath_
    rw [hbg, hbv]
  · unfold Dijkstra.shortestPath_
    rw [hdg, hdv]

/-- Witness for C9 at a concrete one-edge instance queried twice. -/
theorem C9_witness :
    ((buildBF [⟨false, 0, 1, 1⟩]).m_graph =
        (buildBF [⟨false, 0, 1, 1⟩]).m_graph ∧
      (buildDij [⟨false, 0, 1, 1⟩]).m_graph =
        (buildDij [⟨false, 0, 1, 1⟩]).m_graph) ∧
    ((buildBF [⟨false, 0, 1, 1⟩]).shortestPath_ 0 2 =
        (buildBF [⟨false, 0, 1, 1⟩]).shortestPath_ 0 2 ∧
      (buildDij [⟨false, 0, 1, 1⟩]).shortestPath_ 0 2 =
        (buildDij [⟨false, 0, 1, 1⟩]).shortestPath_ 0 2 ∧
      ((buildWF 3 [⟨false, 0, 1, 1⟩, ⟨false, 1, 2, 1⟩]).shortestPath_
          0).2.m_graph ≠
        (buildWF 3 [⟨false, 0, 1, 1⟩, ⟨false, 1, 2, 1⟩]).m_graph) :=
  ⟨⟨rfl, rfl⟩,
    C9_frame (buildBF [⟨false, 0, 1, 1⟩]) (buildBF [⟨false, 0, 1, 1⟩])
      (buildDij [⟨false, 0, 1, 1⟩]) (buildDij [⟨false, 0, 1, 1⟩])
      0 2 rfl rfl rfl rfl⟩

/-! ## SpanningTreeSolver: Prim and Kruskal

No spanning-tree solver appears anywhere under `src/`; the definitions in
this section are modelled from the specification's prose (its
SpanningTreeSolver contract) so that the spec's scenarios can at least be
evaluated against a faithful reading of that prose. -/

/-- Modelled from the spec: an edge record of the spanning-tree family —
source (an integer, `-1` marking Prim's seed sentinel), destination and
cost. -/
structure SEdge where
  fr : Int
  toV : Nat
  cost : Int
deriving DecidableEq, Repr

/-- Modelled from the spec: pop a cheapest element of the frontier pool
(min-ordered priority structure keyed by cost). -/
def popMinE (q : List SEdge) : Option (SEdge × List SEdge) :=
  match q with
  | [] => none
  | x :: xs =>
    let m := xs.foldl (fun a b => if a.cost ≤ b.cost then a else b) x
    some (m, q.erase m)

/-- Modelled from the spec: Prim's state — a pre-sized adjacency array,
each slot holding the `(destination, cost)` records inserted for that
source. -/
structure Prim where
  m_graph : List (List (Nat × Int))
deriving Repr

/-- Modelled from the spec: construction with a vertex-count upper
bound. -/
def Prim.initV (v : Nat) : Prim := ⟨List.replicate v []⟩

/-- Modelled from the spec: `addEdge` records the edge in `from`'s
adjacency list only. -/
def Prim.addEdge (st : Prim) (fr toV : Nat) (cost : Int) : Prim :=
  ⟨st.m_graph.set fr (st.m_graph.getD fr [] ++ [(toV, cost)])⟩

/-- Modelled from the spec: Prim's frontier loop — pop the cheapest edge,
discard if its destination is visited, otherwise visit, accumulate,
record (the sentinel, marked `from = -1`, is skipped) and push the new
vertex's edges to unvisited neighbours. -/
def primLoop : Nat → List (List (Nat × Int)) → List SEdge → List Bool →
    Int → List SEdge → Option (Int × List SEdge)
  | 0, _, _, _, _, _ => none
  | fuel + 1, adj, q, vis, tot, es =>
    match popMinE q with
    | none => some (tot, es)
    | some (e, rest) =>
      if vis.getD e.toV false then primLoop fuel adj rest vis tot es
      else
        primLoop fuel adj
          (rest ++ ((adj.getD e.toV []).filter
            (fun p => !((vis.set e.toV true).getD p.1 false))).map
            (fun p => (⟨(e.toV : Int), p.1, p.2⟩ : SEdge)))
          (vis.set e.toV true) (tot + e.cost)
          (if e.fr = -1 then es else es ++ [e])

/-- Modelled from the spec: `Prim::solve`, seeded with the sentinel edge
`(-1, root 0, 0)` and no visited vertex. -/
def Prim.solve (st : Prim) (fuel : Nat) : Option (Int × List SEdge) :=
  primLoop fuel st.m_graph [⟨-1, 0, 0⟩]
    (List.replicate st.m_graph.length false) 0 []

/-- Modelled from the spec: Kruskal's state — the same pre-sized
adjacency array plus a DisjointSet over the vertex indices. -/
structure Kruskal where
  m_graph : List (List (Nat × Int))
  m_uf : UnionFind
deriving Repr

/-- Modelled from the spec: construction with a vertex-count upper
bound. -/
def Kruskal.initV (v : Nat) : Kruskal :=
  ⟨List.replicate v [], UnionFind.init v⟩

/-- Modelled from the spec: `addEdge` records the edge in `from`'s
adjacency list only. -/
def Kruskal.addEdge (st : Kruskal) (fr toV : Nat) (cost : Int) : Kruskal :=
  { st with m_graph :=
      st.m_graph.set fr (st.m_graph.getD fr [] ++ [(toV, cost)]) }

/-- Modelled from the spec: the unordered pool of every recorded edge. -/
def kruskalPool (adj : List (List (Nat × Int))) : List SEdge :=
  adj.enum.flatMap (fun p => p.2.map (fun q => ⟨(p.1 : Int), q.1, q.2⟩))

/-- Modelled from the spec: ascending-by-cost insertion. -/
def insertByCost (e : SEdge) : List SEdge → List SEdge
  | [] => [e]
  | x :: xs =>
    if e.cost ≤ x.cost then e :: x :: xs else x :: insertByCost e xs

/-- Modelled from the spec: sort the pool ascending by cost. -/
def sortByCost : List SEdge → List SEdge
  | [] => []
  | x :: xs => insertByCost x (sortByCost xs)

/-- Modelled from the spec: Kruskal's scan — accept an edge (accumulate,
record, union) when its endpoints are in different groups, skip it
otherwise. -/
def kruskalScan : Nat → List SEdge → UnionFind → Int → List SEdge →
    Option (Int × List SEdge)
  | _, [], _, tot, es => some (tot, es)
  | 0, _ :: _, _, _, _ => none
  | fuel + 1, e :: rest, uf, tot, es =>
    match uf.isSame e.fr.toNat e.toV (uf.m_par.length + 1) with
    | none => none
    | some (same, uf1) =>
      if same then kruskalScan fuel rest uf1 tot es
      else
        match uf1.unite e.fr.toNat e.toV (uf1.m_par.length + 1) with
        | none => none
        | some uf2 => kruskalScan fuel rest uf2 (tot + e.cost) (es ++ [e])

/-- Modelled from the spec: `Kruskal::solve`. -/
def Kruskal.solve (st : Kruskal) (fuel : Nat) :
    Option (Int × List SEdge) :=
  kruskalScan fuel (sortByCost (kruskalPool st.m_graph)) st.m_uf 0 []

/-- Building a Prim instance from build operations (an undirected
operation inserts both orientations, a directed one only the given
orientation). -/
def buildPrim (v : Nat) (ops : List Op) : Prim :=
  ops.foldl (fun st o =>
    if o.undirected then
      (st.addEdge o.fr o.toV o.cost).addEdge o.toV o.fr o.cost
    else st.addEdge o.fr o.toV o.cost) (Prim.initV v)

/-- Building a Kruskal instance from build operations. -/
def buildKruskal (v : Nat) (ops : List Op) : Kruskal :=
  ops.foldl (fun st o =>
    if o.undirected then
      (st.addEdge o.fr o.toV o.cost).addEdge o.toV o.fr o.cost
    else st.addEdge o.fr o.toV o.cost) (Kruskal.initV v)

/-- On the specification's concrete scenario (vertices `{0, 1, 2, 3}`,
undirected edges `(0,1,4), (0,2,1), (2,1,2), (1,3,1), (2,3,5)` inserted in
both orientations), the spec-modelled Prim and Kruskal both report the
expected minimum-spanning-tree weight `4`. -/
theorem prim_kruskal_scenario :
    ((buildPrim 4 [⟨true, 0, 1, 4⟩, ⟨true, 0, 2, 1⟩, ⟨true, 2, 1, 2⟩,
      ⟨true, 1, 3, 1⟩, ⟨true, 2, 3, 5⟩]).solve 20).map Prod.fst =
      some 4 ∧
    ((buildKruskal 4 [⟨true, 0, 1, 4⟩, ⟨true, 0, 2, 1⟩, ⟨true, 2, 1, 2⟩,
      ⟨true, 1, 3, 1⟩, ⟨true, 2, 3, 5⟩]).solve 20).map Prod.fst =
      some 4 := by
  refine ⟨by decide, by decide⟩

/-- Under the spec's literal directed insertion semantics, the connected
undirected single-edge graph `{0, 1}` inserted as `addEdge(1, 0, 5)` makes
the two spec-modelled strategies report different totals: Prim rooted at
`0` never sees the edge (total `0`), Kruskal accepts it (total `5`). -/
theorem prim_kruskal_asymmetry :
    ((Prim.initV 2).addEdge 1 0 5).solve 5 = some (0, []) ∧
    ((Kruskal.initV 2).addEdge 1 0 5).solve 5 =
      some (5, [⟨1, 0, 5⟩]) ∧ (0 : Int) ≠ 5 := by
  refine ⟨by decide, by decide, by decide⟩
